import Mathlib

/-! DataBaseandAlg: bids in a vector, a binary search tree and a hash table.

A shallow embedding of `DataBaseandAlg/Main.cpp` and the properties of its
three engines.

Conventions of the embedding:

* `std::vector<Bid>` is a `List Bid`; `vector::at` is `vectorAt`, which fails
  with `Fault.outOfRange` where the C++ call throws `std::out_of_range`.
* `int` indices are `Int`; the vectors considered have fewer than `2^31`
  elements, so no index computation overflows.
* `std::string::compare` is `stringCompare`.  The C++ standard fixes only the
  sign of its result; the embedding gives the value that the library
  libstdc++ computes: the result of `memcmp` on the common prefix, which is
  the difference of the first two characters that differ, and otherwise the
  difference of the lengths.  Characters are taken by their code: for text of
  one-byte characters this is the difference of the bytes, and for all text
  the sign is the same.  The operators `<` and `>` on strings are the
  tests `stringCompare a b < 0` and `stringCompare a b > 0`.  The theorems
  relate the sign of `stringCompare` to the order `<` of `String`, which is
  the lexicographic order of the character codes.
* Loops (`while`, `for`, recursion on index ranges) take a fuel argument and
  fail with `Fault.outOfFuel` when it runs out; `quickSortAll_perm` and
  `selectionSort_perm` show that fuel `size + 2` and `size + 1` are always
  enough.  Loops that follow a tree or a chain downwards are structural
  recursions.
* `double amount` is only ever copied, never computed with; it is an `Int`.
* A `Node*` of the binary search tree is a `Tree`: the pointer together with
  the nodes it owns.  `Tree.wild` is a pointer that must not be dereferenced;
  a dereference fails with `Fault.invalidPointer`.  The tree object is its
  `root` pointer; the empty tree is the null root (the constructor of the
  source does not assign `root`).
* The hash table is the pair of its vector `myNodes` and its `setSize`.
-/

namespace DataBaseandAlg

/-! ## Faults -/

/-- Ways in which a run of the program fails to deliver a value. -/
inductive Fault where
  /-- The exception `std::out_of_range`, thrown by `vector::at`. -/
  | outOfRange
  /-- A pointer or iterator that is null, freed, indeterminate or past the end
  is used. -/
  | invalidPointer
  /-- The remainder of a division by zero is taken. -/
  | divByZero
  /-- The fuel of a loop of the embedding is used up. -/
  | outOfFuel
  deriving DecidableEq, Repr

/-! ## Records -/

/-- The record `struct Bid`. -/
structure Bid where
  bidId : String
  title : String
  fund : String
  amount : Int
  deriving DecidableEq, Repr

/-- The constructor `Bid()`: empty strings and amount `0.0`. -/
def Bid.default : Bid := ⟨"", "", "", 0⟩

instance : Inhabited Bid := ⟨Bid.default⟩

/-! ## String comparison -/

/-- The comparison of two character sequences as `std::string::compare`
makes it in libstdc++: `memcmp` on the common prefix, which returns the
difference of the first two characters that differ, and, when one sequence is
a prefix of the other, the difference of the lengths. -/
def compareChars : List Char → List Char → Int
  | [], [] => 0
  | [], b :: bs => - ((b :: bs).length : Int)
  | a :: as, [] => ((a :: as).length : Int)
  | a :: as, b :: bs =>
    if a = b then compareChars as bs
    else (a.toNat : Int) - (b.toNat : Int)

/-- The call `a.compare(b)` of `std::string`: negative, zero or positive as
`a` is before, equal to or after `b`; the value is the one of `compareChars`
and is `-1` only when the first two characters that differ, or the lengths,
differ by one. -/
def stringCompare (a b : String) : Int := compareChars a.data b.data

/-! ## Vectors -/

/-- The call `v.at(i)` read as a value; `i` is an `int` converted to
`size_t`, so a negative index is out of range as well. -/
def vectorAt {α : Type} (v : List α) (i : Int) : Except Fault α :=
  if i < 0 then .error .outOfRange
  else
    match v[i.toNat]? with
    | some x => .ok x
    | none => .error .outOfRange

/-- The three assignments `temp = bids.at(l); bids.at(l) = bids.at(h);
bids.at(h) = temp;`. -/
def swapAt (bids : List Bid) (l h : Int) : Except Fault (List Bid) :=
  match vectorAt bids l with
  | .error e => .error e
  | .ok temp =>
    match vectorAt bids h with
    | .error e => .error e
    | .ok bh => .ok ((bids.set l.toNat bh).set h.toNat temp)

/-! ## Quick sort -/

/-- The loop `while (bids.at(l).title.compare(pivot.title) == -1) ++l;` of
`partition`; the result is the final `l`. -/
def scanLow (bids : List Bid) (pivot : Bid) : Nat → Int → Except Fault Int
  | 0, _ => .error .outOfFuel
  | fuel + 1, l =>
    match vectorAt bids l with
    | .error e => .error e
    | .ok b =>
      if stringCompare b.title pivot.title = -1 then scanLow bids pivot fuel (l + 1)
      else .ok l

/-- The loop `while (pivot.title.compare(bids.at(h).title) == -1) --h;` of
`partition`; the result is the final `h`. -/
def scanHigh (bids : List Bid) (pivot : Bid) : Nat → Int → Except Fault Int
  | 0, _ => .error .outOfFuel
  | fuel + 1, h =>
    match vectorAt bids h with
    | .error e => .error e
    | .ok b =>
      if stringCompare pivot.title b.title = -1 then scanHigh bids pivot fuel (h - 1)
      else .ok h

/-- The loop `while (!done)` of `partition`, from the state `(bids, l, h)`;
`inner` is the fuel handed to each of the two scanning loops.  The result is
the vector and the final `h`. -/
def partitionLoop (inner : Nat) (pivot : Bid) :
    Nat → List Bid → Int → Int → Except Fault (List Bid × Int)
  | 0, _, _, _ => .error .outOfFuel
  | fuel + 1, bids, l, h =>
    match scanLow bids pivot inner l with
    | .error e => .error e
    | .ok l1 =>
      match scanHigh bids pivot inner h with
      | .error e => .error e
      | .ok h1 =>
        if l1 ≥ h1 then .ok (bids, h1)
        else
          match swapAt bids l1 h1 with
          | .error e => .error e
          | .ok bids1 => partitionLoop inner pivot fuel bids1 (l1 + 1) (h1 - 1)

/-- The function `partition(bids, begin, end)`: the pivot is the element at
the midpoint; the result is the vector after the call and the returned `h`. -/
def partition (fuel : Nat) (bids : List Bid) (begin end_ : Int) :
    Except Fault (List Bid × Int) :=
  match vectorAt bids (begin + (end_ - begin).tdiv 2) with
  | .error e => .error e
  | .ok pivot => partitionLoop fuel pivot fuel bids begin end_

/-- The function `quickSort(bids, begin, end)`. -/
def quickSort : Nat → List Bid → Int → Int → Except Fault (List Bid)
  | 0, _, _, _ => .error .outOfFuel
  | fuel + 1, bids, begin, end_ =>
    if begin ≥ end_ then .ok bids
    else
      match partition fuel bids begin end_ with
      | .error e => .error e
      | .ok (bids1, pivot) =>
        match quickSort fuel bids1 begin pivot with
        | .error e => .error e
        | .ok bids2 => quickSort fuel bids2 (pivot + 1) end_

/-- The call `quickSort(bids, 0, bids.size() - 1)` of `main`; for an empty
vector the third argument is `-1`. -/
def quickSortAll (fuel : Nat) (bids : List Bid) : Except Fault (List Bid) :=
  quickSort fuel bids 0 ((bids.length : Int) - 1)

/-! ## Selection sort -/

/-- The inner loop `for (j = ...; j < bids.size(); ++j)` of `selectionSort`,
from the state `(j, smallInd)`; the result is the final `smallInd`. -/
def selectionInner (bids : List Bid) : Nat → Nat → Int → Except Fault Int
  | 0, _, _ => .error .outOfFuel
  | fuel + 1, j, smallInd =>
    if j < bids.length then
      match vectorAt bids (j : Int) with
      | .error e => .error e
      | .ok bj =>
        match vectorAt bids smallInd with
        | .error e => .error e
        | .ok bs =>
          if stringCompare bj.title bs.title = -1 then selectionInner bids fuel (j + 1) (j : Int)
          else selectionInner bids fuel (j + 1) smallInd
    else .ok smallInd

/-- The outer loop `for (i = ...; i < bids.size(); ++i)` of `selectionSort`,
from the state `(i, bids)`; `inner` is the fuel handed to the inner loop. -/
def selectionOuter (inner : Nat) : Nat → Nat → List Bid → Except Fault (List Bid)
  | 0, _, _ => .error .outOfFuel
  | fuel + 1, i, bids =>
    if i < bids.length then
      match selectionInner bids inner (i + 1) (i : Int) with
      | .error e => .error e
      | .ok smallInd =>
        match swapAt bids (i : Int) smallInd with
        | .error e => .error e
        | .ok bids1 => selectionOuter inner fuel (i + 1) bids1
    else .ok bids

/-- The function `selectionSort(bids)`. -/
def selectionSort (fuel : Nat) (bids : List Bid) : Except Fault (List Bid) :=
  selectionOuter fuel fuel 0 bids

/-! ## Predicates used to state the properties of the sorters -/

/-- Every element stored at an index of `[lo, hi]` satisfies `P`. -/
def AllIn (s : List Bid) (lo hi : Int) (P : Bid → Prop) : Prop :=
  ∀ i x, lo ≤ i → i ≤ hi → vectorAt s i = .ok x → P x

/-- The vector `t` is `s` with the contents of `[lo, hi]` rearranged: same
length, a permutation, every position outside `[lo, hi]` unchanged, and what
holds of all elements of `[lo, hi]` in `s` holds of all of them in `t`. -/
def Rearranged (lo hi : Int) (s t : List Bid) : Prop :=
  t.length = s.length ∧ t.Perm s ∧
  (∀ i, (i < lo ∨ hi < i) → vectorAt t i = vectorAt s i) ∧
  (∀ P : Bid → Prop, AllIn s lo hi P → AllIn t lo hi P)

/-- Equality of results is decidable. -/
instance instDecidableEqExcept {ε α : Type} [DecidableEq ε] [DecidableEq α] :
    DecidableEq (Except ε α)
  | .ok a, .ok b =>
    if h : a = b then isTrue (by rw [h]) else isFalse (fun h2 => h (Except.ok.inj h2))
  | .error a, .error b =>
    if h : a = b then isTrue (by rw [h]) else isFalse (fun h2 => h (Except.error.inj h2))
  | .ok _, .error _ => isFalse (fun h => Except.noConfusion h)
  | .error _, .ok _ => isFalse (fun h => Except.noConfusion h)

/-! ## Binary search tree -/

/-- A value of type `Node*` of the binary search tree together with what it
points to: the null pointer, a node that is alive, or a pointer that must not
be dereferenced (it designates a node released with `free`, or it is the
indeterminate result of a call that ended without a `return` statement). -/
inductive Tree where
  | nil
  | node (left : Tree) (bid : Bid) (right : Tree)
  | wild
  deriving DecidableEq, Repr

/-- The member function `BinarySearchTree::addNode(node, bid)`; the result is
the node after the call. -/
def BinarySearchTree.addNode : Tree → Bid → Except Fault Tree
  | .nil, _ => .error .invalidPointer
  | .wild, _ => .error .invalidPointer
  | .node l b r, bid =>
    if stringCompare b.bidId bid.bidId > 0 then
      match l with
      | .nil => .ok (.node (.node .nil bid .nil) b r)
      | _ =>
        match addNode l bid with
        | .error e => .error e
        | .ok l1 => .ok (.node l1 b r)
    else
      match r with
      | .nil => .ok (.node l b (.node .nil bid .nil))
      | _ =>
        match addNode r bid with
        | .error e => .error e
        | .ok r1 => .ok (.node l b r1)

/-- The member function `BinarySearchTree::Insert(bid)`, on the tree whose
root pointer is `root`; the result is the root afterwards. -/
def BinarySearchTree.Insert (root : Tree) (bid : Bid) : Except Fault Tree :=
  match root with
  | .nil => .ok (.node .nil bid .nil)
  | _ => addNode root bid

/-- Bulk insertion, the loop of `loadBids(csvPath, bst)`: one `Insert` for
each record, in order. -/
def BinarySearchTree.insertAll : Tree → List Bid → Except Fault Tree
  | root, [] => .ok root
  | root, bid :: rest =>
    match Insert root bid with
    | .error e => .error e
    | .ok root1 => insertAll root1 rest

/-- The member function `BinarySearchTree::Search(bidId)`; the loop follows
one path of the tree downwards. -/
def BinarySearchTree.Search : Tree → String → Except Fault Bid
  | .nil, _ => .ok Bid.default
  | .wild, _ => .error .invalidPointer
  | .node l b r, bidId =>
    if stringCompare b.bidId bidId = 0 then .ok b
    else if stringCompare bidId b.bidId < 0 then Search l bidId
    else Search r bidId

/-- The member function `BinarySearchTree::inOrder(node)`: its body is empty,
it visits nothing. -/
def BinarySearchTree.inOrder (_node : Tree) : List Bid := []

/-- The member function `BinarySearchTree::InOrder()`: its body is empty; the
result is the sequence of records it enumerates. -/
def BinarySearchTree.InOrder (_root : Tree) : List Bid := []

/-- The member function `BinarySearchTree::minVal(node)`; the result is the
record of the node it returns. -/
def BinarySearchTree.minVal : Tree → Except Fault Bid
  | .nil => .error .invalidPointer
  | .wild => .error .invalidPointer
  | .node l b _ =>
    match l with
    | .nil => .ok b
    | _ => minVal l

/-- The member function `BinarySearchTree::removeNode(root, bidId)`.  The
result is a pair: what the pointer passed in designates after the call, and
the pointer returned.  A call that reaches the end of the body returns no
value: the caller receives `Tree.wild`. -/
def BinarySearchTree.removeNode : Tree → String → Except Fault (Tree × Tree)
  | .nil, _ => .ok (.nil, .nil)
  | .wild, _ => .error .invalidPointer
  | .node l b r, bidId =>
    if stringCompare bidId b.bidId < 0 then
      -- root->left = removeNode(root->right, bidId);
      match removeNode r bidId with
      | .error e => .error e
      | .ok (r1, p) => .ok (.node p b r1, .wild)
    else if stringCompare bidId b.bidId > 0 then
      -- root->right = removeNode(root->right, bidId);
      match removeNode r bidId with
      | .error e => .error e
      | .ok (_, p) => .ok (.node l b p, .wild)
    else
      match l, r with
      | .nil, _ => .ok (.wild, r)
      | _, .nil => .ok (.wild, l)
      | _, _ =>
        match minVal r with
        | .error e => .error e
        | .ok temp =>
          -- root->bid.bidId = temp->bid.bidId;
          match removeNode r temp.bidId with
          | .error e => .error e
          | .ok (_, p) => .ok (.node l { b with bidId := temp.bidId } p, .wild)

/-- The member function `BinarySearchTree::Remove(bidId)`: the pointer that
`removeNode` returns is discarded and `root` is not assigned. -/
def BinarySearchTree.Remove (root : Tree) (bidId : String) : Except Fault Tree :=
  match removeNode root bidId with
  | .error e => .error e
  | .ok (here, _) => .ok here

/-! ## Hash table -/

/-- The constant `DEFAULT_SIZE`. -/
def DEFAULT_SIZE : Nat := 20000

/-- The constant `UINT_MAX` of a 32-bit `unsigned`: the key of an empty slot. -/
def UINT_MAX : Nat := 4294967295

/-- The test `isspace(c)` of the C locale. -/
def isSpace (c : Char) : Bool :=
  c.toNat = 32 || (9 ≤ c.toNat && c.toNat ≤ 13)

/-- The digits read by `atoi`, most significant first, added to `acc`;
reading stops at the first character that is not a digit. -/
def atoiDigits : List Char → Int → Int
  | [], acc => acc
  | c :: cs, acc =>
    if 48 ≤ c.toNat ∧ c.toNat ≤ 57 then atoiDigits cs (acc * 10 + ((c.toNat : Int) - 48))
    else acc

/-- The library function `atoi`: white space is skipped, one sign is read,
then the digits that follow; `0` when no digit follows.  The value of a digit
sequence outside the range of `int` is not defined by the C library; here it
is the number written. -/
def atoi (s : String) : Int :=
  match s.data.dropWhile isSpace with
  | [] => 0
  | c :: cs =>
    if c = '-' then - atoiDigits cs 0
    else if c = '+' then atoiDigits cs 0
    else atoiDigits (c :: cs) 0

/-- A value of type `Node*` inside a bucket: null, or the next node of the
chain. -/
inductive HashTable.Chain where
  | null
  | node (bid : Bid) (key : Nat) (nextNodePtr : HashTable.Chain)
  deriving DecidableEq, Repr

/-- The structure `HashTable::Node`, an element of the vector `myNodes`. -/
structure HashTable.Node where
  bid : Bid
  key : Nat
  nextNodePtr : HashTable.Chain
  deriving DecidableEq, Repr

/-- The constructor `Node()`: key `UINT_MAX`, no next node. -/
def HashTable.Node.empty : HashTable.Node := ⟨Bid.default, UINT_MAX, .null⟩

/-- The class `HashTable`: the vector `myNodes` and the member `setSize`. -/
structure HashTable where
  myNodes : List HashTable.Node
  setSize : Nat
  deriving DecidableEq, Repr

/-- The constructor `HashTable(size)`: `myNodes.resize(size)`. -/
def HashTable.new (size : Nat) : HashTable :=
  ⟨List.replicate size HashTable.Node.empty, size⟩

/-- The member function `HashTable::hash(key)`: the `int` argument is
converted to `unsigned` and reduced modulo `setSize`. -/
def HashTable.hash (ht : HashTable) (key : Int) : Except Fault Nat :=
  if ht.setSize = 0 then .error .divByZero
  else .ok ((key % 4294967296).toNat % ht.setSize)

/-- The member function `HashTable::Insert(bid)`.  The address of a vector
element is never null, so the first branch of the source is not reachable;
in an occupied bucket the loop walks to the last node of the chain and the
function returns without storing anything. -/
def HashTable.Insert (ht : HashTable) (bid : Bid) : Except Fault HashTable :=
  match ht.hash (atoi bid.bidId) with
  | .error e => .error e
  | .ok key =>
    match vectorAt ht.myNodes (key : Int) with
    | .error e => .error e
    | .ok prevNode =>
      if prevNode.key = UINT_MAX then
        .ok { ht with myNodes := ht.myNodes.set key ⟨bid, key, .null⟩ }
      else .ok ht

/-- The member function `HashTable::Remove(bidId)`:
`myNodes.erase(myNodes.begin() + key)`, which removes the element and moves
every later element one position down. -/
def HashTable.Remove (ht : HashTable) (bidId : String) : Except Fault HashTable :=
  match ht.hash (atoi bidId) with
  | .error e => .error e
  | .ok key =>
    if key < ht.myNodes.length then .ok { ht with myNodes := ht.myNodes.eraseIdx key }
    else .error .invalidPointer

/-- The loop `while (node != nullptr)` of `HashTable::Search`, from a node of
the chain. -/
def HashTable.searchChain : HashTable.Chain → String → Bid
  | .null, _ => Bid.default
  | .node bid key next, bidId =>
    if key ≠ UINT_MAX ∧ stringCompare bid.bidId bidId = 0 then bid
    else HashTable.searchChain next bidId

/-- The member function `HashTable::Search(bidId)`. -/
def HashTable.Search (ht : HashTable) (bidId : String) : Except Fault Bid :=
  match ht.hash (atoi bidId) with
  | .error e => .error e
  | .ok key =>
    match vectorAt ht.myNodes (key : Int) with
    | .error e => .error e
    | .ok node =>
      if node.key ≠ UINT_MAX ∧ stringCompare node.bid.bidId bidId = 0 then .ok node.bid
      else if node.key = UINT_MAX then .ok Bid.default
      else .ok (HashTable.searchChain (.node node.bid node.key node.nextNodePtr) bidId)

/-- Bulk insertion, the loop of `loadBids(csvPath, hashTable)`: one `Insert`
for each record, in order. -/
def HashTable.insertAll : HashTable → List Bid → Except Fault HashTable
  | ht, [] => .ok ht
  | ht, bid :: rest =>
    match ht.Insert bid with
    | .error e => .error e
    | .ok ht1 => HashTable.insertAll ht1 rest

/-! ## Predicates used to state the properties of the tree -/

/-- The records of a tree in the order left subtree, node, right subtree. -/
def Tree.toList : Tree → List Bid
  | .nil => []
  | .wild => []
  | .node l b r => l.toList ++ b :: r.toList

/-- Every pointer of the tree is null or designates a node that is alive. -/
def Tree.Live : Tree → Prop
  | .nil => True
  | .wild => False
  | .node l _ r => l.Live ∧ r.Live

/-- The ordering of a search tree: at every node the ids of the left subtree
are less than the node's id and those of the right subtree are greater than or
equal to it. -/
def Tree.Ordered : Tree → Prop
  | .nil => True
  | .wild => True
  | .node l b r =>
    (∀ x ∈ l.toList, x.bidId < b.bidId) ∧ (∀ x ∈ r.toList, b.bidId ≤ x.bidId) ∧
    l.Ordered ∧ r.Ordered

/-- The positions `lo`, ..., `hi` of a vector, as a vector of their own. -/
def slice (s : List Bid) (lo hi : Int) : List Bid :=
  (s.drop lo.toNat).take (hi - lo + 1).toNat

/-- The tree `t1` is the tree `t` with one null pointer replaced by a new leaf
that holds `bid`, every node of `t` keeping its record and its place; the path
from the root to the new leaf goes left at a node whose id is greater than the
id of `bid` and right at every other node, a node with the same id
included. -/
inductive InsertedLeaf (bid : Bid) : Tree → Tree → Prop where
  | here : InsertedLeaf bid .nil (.node .nil bid .nil)
  | left (l l1 r : Tree) (b : Bid) :
      bid.bidId < b.bidId → InsertedLeaf bid l l1 →
      InsertedLeaf bid (.node l b r) (.node l1 b r)
  | right (l r r1 : Tree) (b : Bid) :
      b.bidId ≤ bid.bidId → InsertedLeaf bid r r1 →
      InsertedLeaf bid (.node l b r) (.node l b r1)

/-! ## Facts about string comparison -/

theorem char_eq_of_toNat (a b : Char) (h : a.toNat = b.toNat) : a = b :=
  Char.ext (UInt32.ext (by simpa [Char.toNat, UInt32.toNat] using h))

/-- The result of the comparison is negative exactly when the first sequence
is before the second in lexicographic order. -/
theorem compareChars_neg_iff (as bs : List Char) : compareChars as bs < 0 ↔ as < bs := by
  induction as generalizing bs with
  | nil =>
    cases bs with
    | nil => simp [compareChars]
    | cons b bs =>
      simp only [compareChars, List.length_cons]
      constructor
      · intro _; exact List.nil_lt_cons b bs
      · intro _; omega
  | cons a as ih =>
    cases bs with
    | nil =>
      simp only [compareChars, List.length_cons]
      constructor
      · intro h; omega
      · intro h; cases h
    | cons b bs =>
      simp only [compareChars]
      by_cases hab : a = b
      · subst hab
        simp only [if_true, ih]
        exact (List.Lex.cons_iff (r := (· < ·))).symm
      · simp only [hab, if_false]
        have hne : a.toNat ≠ b.toNat := fun h => hab (char_eq_of_toNat a b h)
        constructor
        · intro h
          have h1 : a.toNat < b.toNat := by omega
          exact List.Lex.rel h1
        · intro h
          cases h with
          | cons _ => exact absurd rfl hab
          | rel h1 =>
            have h2 : a.toNat < b.toNat := h1
            omega

theorem compareChars_swap (as bs : List Char) : compareChars bs as = - compareChars as bs := by
  induction as generalizing bs with
  | nil => cases bs <;> simp [compareChars]
  | cons a as ih =>
    cases bs with
    | nil => simp [compareChars]
    | cons b bs =>
      simp only [compareChars]
      by_cases hab : a = b
      · subst hab
        simp [ih]
      · have hba : ¬ b = a := fun h => hab h.symm
        simp only [hab, hba, if_false]
        omega

theorem compareChars_eq_zero_iff (as bs : List Char) : compareChars as bs = 0 ↔ as = bs := by
  induction as generalizing bs with
  | nil =>
    cases bs with
    | nil => simp [compareChars]
    | cons b bs =>
      simp only [compareChars, List.length_cons]
      constructor
      · intro h; omega
      · intro h; cases h
  | cons a as ih =>
    cases bs with
    | nil =>
      simp only [compareChars, List.length_cons]
      constructor
      · intro h; omega
      · intro h; cases h
    | cons b bs =>
      simp only [compareChars]
      by_cases hab : a = b
      · subst hab
        simp [ih]
      · have hne : a.toNat ≠ b.toNat := fun h => hab (char_eq_of_toNat a b h)
        simp only [hab, if_false, List.cons.injEq, false_and, iff_false]
        omega

theorem stringCompare_eq_zero (a b : String) : stringCompare a b = 0 ↔ a = b := by
  unfold stringCompare
  rw [compareChars_eq_zero_iff]
  exact String.toList_inj

theorem stringCompare_neg (a b : String) : stringCompare a b < 0 ↔ a < b := by
  rw [String.lt_iff_toList_lt]
  exact compareChars_neg_iff _ _

theorem stringCompare_pos (a b : String) : 0 < stringCompare a b ↔ b < a := by
  rw [← stringCompare_neg]
  unfold stringCompare
  rw [compareChars_swap a.data b.data]
  omega

/-- A string compares equal to itself. -/
theorem stringCompare_self (a : String) : stringCompare a a = 0 :=
  (stringCompare_eq_zero a a).mpr rfl

/-- When the test `a.compare(b) == -1` succeeds, `a` is before `b`; the
converse fails, for instance for the strings `A` and `C`. -/
theorem lt_of_stringCompare_eq_neg_one (a b : String) (h : stringCompare a b = -1) :
    a < b :=
  (stringCompare_neg a b).mp (by omega)

/-! ## Facts about vector access and swapping -/

theorem vectorAt_ok_iff {α : Type} (v : List α) (i : Int) (x : α) :
    vectorAt v i = .ok x ↔ 0 ≤ i ∧ v[i.toNat]? = some x := by
  unfold vectorAt
  by_cases h : i < 0
  · simp [h]
  · simp only [h, if_false]
    cases hv : v[i.toNat]? with
    | none => simp
    | some y =>
      simp only [Except.ok.injEq, Option.some.injEq, iff_and_self]
      intro _; omega

theorem vectorAt_bounds {α : Type} {v : List α} {i : Int} {x : α} (h : vectorAt v i = .ok x) :
    0 ≤ i ∧ i < v.length := by
  rw [vectorAt_ok_iff] at h
  obtain ⟨h0, h1⟩ := h
  have h2 := (List.getElem?_eq_some_iff.mp h1).1
  omega

theorem vectorAt_ok_of_bounds {α : Type} (v : List α) (i : Int) (h0 : 0 ≤ i)
    (h1 : i < v.length) : ∃ x, vectorAt v i = .ok x := by
  have h2 : i.toNat < v.length := by omega
  exact ⟨v[i.toNat], (vectorAt_ok_iff v i _).mpr ⟨h0, List.getElem?_eq_getElem h2⟩⟩

theorem vectorAt_natCast {α : Type} (v : List α) (n : Nat) (h : n < v.length) :
    vectorAt v (n : Int) = .ok v[n] := by
  rw [vectorAt_ok_iff]
  exact ⟨by omega, by simp [List.getElem?_eq_getElem h]⟩

theorem vectorAt_congr {α : Type} (v w : List α) (i : Int)
    (h : 0 ≤ i → v[i.toNat]? = w[i.toNat]?) : vectorAt v i = vectorAt w i := by
  unfold vectorAt
  by_cases h0 : i < 0
  · simp [h0]
  · simp only [h0, if_false]
    rw [h (by omega)]

theorem set_set_perm (s : List Bid) (i j : Nat) (hi : i < s.length) (hj : j < s.length) :
    ((s.set i s[j]).set j s[i]).Perm s := by
  rw [List.perm_iff_count]
  intro a
  have hj1 : j < (s.set i s[j]).length := by simpa using hj
  rw [List.count_set _ _ _ _ hj1, List.count_set _ _ _ _ hi]
  have e1 : (s.set i s[j])[j] = s[j] := by
    rw [List.getElem_set]
    split_ifs <;> rfl
  rw [e1]
  have c1 : (if (s[i] == a) = true then 1 else 0) ≤ s.count a := by
    split_ifs with h
    · have hm : s[i] ∈ s := List.getElem_mem hi
      have ha : s[i] = a := by simpa using h
      rw [ha] at hm
      exact List.count_pos_iff.mpr hm
    · exact Nat.zero_le _
  omega

/-- The swap of two positions that are in range succeeds, keeps the length,
permutes the elements and exchanges exactly the two positions. -/
theorem swapAt_spec (s : List Bid) (l h : Int) (x y : Bid)
    (hl : vectorAt s l = .ok x) (hh : vectorAt s h = .ok y) :
    ∃ s1, swapAt s l h = .ok s1 ∧ s1.length = s.length ∧ s1.Perm s ∧
      vectorAt s1 h = .ok x ∧ (l ≠ h → vectorAt s1 l = .ok y) ∧
      ∀ k, k ≠ l → k ≠ h → vectorAt s1 k = vectorAt s k := by
  have bl := vectorAt_bounds hl
  have bh := vectorAt_bounds hh
  have hl2 : l.toNat < s.length := by omega
  have hh2 : h.toNat < s.length := by omega
  have ex : s[l.toNat] = x := by
    have h1 := ((vectorAt_ok_iff s l x).mp hl).2
    rw [List.getElem?_eq_getElem hl2] at h1
    exact Option.some.inj h1
  have ey : s[h.toNat] = y := by
    have h1 := ((vectorAt_ok_iff s h y).mp hh).2
    rw [List.getElem?_eq_getElem hh2] at h1
    exact Option.some.inj h1
  refine ⟨(s.set l.toNat y).set h.toNat x, ?_, by simp, ?_, ?_, ?_, ?_⟩
  · simp [swapAt, hl, hh]
  · have hp := set_set_perm s l.toNat h.toNat hl2 hh2
    rw [ex, ey] at hp
    exact hp
  · rw [vectorAt_ok_iff]
    refine ⟨bh.1, ?_⟩
    rw [List.getElem?_set_self (by simpa using hh2)]
  · intro hne
    rw [vectorAt_ok_iff]
    refine ⟨bl.1, ?_⟩
    have hne2 : h.toNat ≠ l.toNat := by omega
    rw [List.getElem?_set_ne hne2, List.getElem?_set_self hl2]
  · intro k hkl hkh
    apply vectorAt_congr
    intro hk
    have h1 : h.toNat ≠ k.toNat := by omega
    have h2 : l.toNat ≠ k.toNat := by omega
    rw [List.getElem?_set_ne h1, List.getElem?_set_ne h2]
/-! ## Rearrangements -/

theorem Rearranged.refl (lo hi : Int) (s : List Bid) : Rearranged lo hi s s :=
  ⟨rfl, List.Perm.refl _, fun _ _ => rfl, fun _ h => h⟩

theorem Rearranged.trans {lo hi : Int} {s t u : List Bid}
    (h1 : Rearranged lo hi s t) (h2 : Rearranged lo hi t u) : Rearranged lo hi s u := by
  obtain ⟨a1, b1, c1, d1⟩ := h1
  obtain ⟨a2, b2, c2, d2⟩ := h2
  exact ⟨a2.trans a1, b2.trans b1, fun i hi => (c2 i hi).trans (c1 i hi),
    fun P hP => d2 P (d1 P hP)⟩

/-- A rearrangement of a range is a rearrangement of every range around it. -/
theorem Rearranged.mono {lo hi lo1 hi1 : Int} {s t : List Bid}
    (h : Rearranged lo1 hi1 s t) (hlo : lo ≤ lo1) (hhi : hi1 ≤ hi) : Rearranged lo hi s t := by
  obtain ⟨a, b, c, d⟩ := h
  refine ⟨a, b, fun i hi => c i (by omega), ?_⟩
  intro P hP i x h1 h2 hx
  by_cases hin : lo1 ≤ i ∧ i ≤ hi1
  · exact d P (fun k y k1 k2 hy => hP k y (by omega) (by omega) hy) i x hin.1 hin.2 hx
  · rw [c i (by omega)] at hx
    exact hP i x h1 h2 hx

theorem swapAt_rearranged (lo hi : Int) (s : List Bid) (l h : Int) (x y : Bid)
    (hl : vectorAt s l = .ok x) (hh : vectorAt s h = .ok y)
    (h1 : lo ≤ l) (h2 : l ≤ hi) (h3 : lo ≤ h) (h4 : h ≤ hi) :
    ∃ s1, swapAt s l h = .ok s1 ∧ Rearranged lo hi s s1 ∧
      vectorAt s1 h = .ok x ∧ (l ≠ h → vectorAt s1 l = .ok y) ∧
      ∀ k, k ≠ l → k ≠ h → vectorAt s1 k = vectorAt s k := by
  obtain ⟨s1, e1, e2, e3, e4, e5, e6⟩ := swapAt_spec s l h x y hl hh
  refine ⟨s1, e1, ⟨e2, e3, fun i hi => e6 i (by omega) (by omega), ?_⟩, e4, e5, e6⟩
  intro P hP k z k1 k2 hz
  by_cases kh : k = h
  · subst kh
    rw [e4] at hz
    cases hz
    exact hP l _ h1 h2 hl
  · by_cases kl : k = l
    · subst kl
      rw [e5 (fun e => kh e)] at hz
      cases hz
      exact hP h _ h3 h4 hh
    · rw [e6 k kl kh] at hz
      exact hP k z k1 k2 hz

/-! ## The scanning loops of `partition`

The loops stop at the first element that fails the test `== -1`; that they
stop inside the range follows from the presence of such an element, whatever
values `compare` returns. -/

theorem scanLow_stops (s : List Bid) (pivot : Bid) (i : Int) (x : Bid)
    (hi : vectorAt s i = .ok x) (hx : stringCompare x.title pivot.title ≠ -1) :
    ∀ (fuel : Nat) (l : Int), 0 ≤ l → l ≤ i → i - l < fuel →
      ∃ l1 y, scanLow s pivot fuel l = .ok l1 ∧ l ≤ l1 ∧ l1 ≤ i ∧
        vectorAt s l1 = .ok y ∧ stringCompare y.title pivot.title ≠ -1 := by
  intro fuel
  induction fuel with
  | zero => intro l _ _ h; omega
  | succ n ih =>
    intro l h0 hle hf
    have bi := vectorAt_bounds hi
    obtain ⟨b, hb⟩ := vectorAt_ok_of_bounds s l h0 (by omega)
    by_cases hc : stringCompare b.title pivot.title = -1
    · have hne : l ≠ i := by
        rintro rfl
        rw [hi] at hb
        cases hb
        exact hx hc
      obtain ⟨l1, y, e1, e2, e3, e4, e5⟩ := ih (l + 1) (by omega) (by omega) (by omega)
      refine ⟨l1, y, ?_, by omega, e3, e4, e5⟩
      simp only [scanLow, hb, hc, if_true]
      exact e1
    · refine ⟨l, b, ?_, le_refl _, hle, hb, hc⟩
      simp only [scanLow, hb, hc, if_false]

theorem scanHigh_stops (s : List Bid) (pivot : Bid) (j : Int) (x : Bid)
    (hj : vectorAt s j = .ok x) (hx : stringCompare pivot.title x.title ≠ -1) :
    ∀ (fuel : Nat) (h : Int), h < s.length → j ≤ h → h - j < fuel →
      ∃ h1 y, scanHigh s pivot fuel h = .ok h1 ∧ h1 ≤ h ∧ j ≤ h1 ∧
        vectorAt s h1 = .ok y ∧ stringCompare pivot.title y.title ≠ -1 := by
  intro fuel
  induction fuel with
  | zero => intro h _ _ hf; omega
  | succ n ih =>
    intro h hlen hle hf
    have bj := vectorAt_bounds hj
    obtain ⟨b, hb⟩ := vectorAt_ok_of_bounds s h (by omega) hlen
    by_cases hc : stringCompare pivot.title b.title = -1
    · have hne : h ≠ j := by
        rintro rfl
        rw [hj] at hb
        cases hb
        exact hx hc
      obtain ⟨h1, y, e1, e2, e3, e4, e5⟩ := ih (h - 1) (by omega) (by omega) (by omega)
      refine ⟨h1, y, ?_, by omega, e3, e4, e5⟩
      simp only [scanHigh, hb, hc, if_true]
      exact e1
    · refine ⟨h, b, ?_, le_refl _, hle, hb, hc⟩
      simp only [scanHigh, hb, hc, if_false]

/-! ## The function `partition` -/

/-- The loop of `partition` returns a split point of `[lo, hi)` and a
rearrangement of the range, provided each scan has an element that stops it:
at the start the pivot, afterwards the two elements just exchanged. -/
theorem partitionLoop_frame (inner : Nat) (pivot : Bid) (lo hi : Int)
    (hin : hi - lo + 1 < inner) :
    ∀ (fuel : Nat) (s : List Bid) (l h : Int),
      0 ≤ lo → hi < s.length → lo ≤ l → h ≤ hi → l ≤ h + 1 → h - l + 1 < fuel →
      (∃ i x, l ≤ i ∧ i ≤ hi ∧ vectorAt s i = .ok x ∧
        stringCompare x.title pivot.title ≠ -1 ∧ (i < hi ∨ h < hi)) →
      (∃ j y, lo ≤ j ∧ j ≤ h ∧ vectorAt s j = .ok y ∧
        stringCompare pivot.title y.title ≠ -1) →
      ∃ s1 p, partitionLoop inner pivot fuel s l h = .ok (s1, p) ∧ Rearranged lo hi s s1 ∧
        lo ≤ p ∧ p < hi := by
  intro fuel
  induction fuel with
  | zero =>
    intro s l h _ _ _ _ hlh hf _ _
    omega
  | succ n ih =>
    intro s l h hlo hhi hl hh hlh hf hi1 hj1
    obtain ⟨i, x, i1, i2, i3, i4, i5⟩ := hi1
    obtain ⟨j, y, j1, j2, j3, j4⟩ := hj1
    obtain ⟨l1, yl, a1, a2, a3, a4, a5⟩ :=
      scanLow_stops s pivot i x i3 i4 inner l (by omega) i1 (by omega)
    obtain ⟨h1, yh, b1, b2, b3, b4, b5⟩ :=
      scanHigh_stops s pivot j y j3 j4 inner h (by omega) j2 (by omega)
    by_cases hc : l1 ≥ h1
    · refine ⟨s, h1, ?_, Rearranged.refl _ _ _, by omega, by omega⟩
      simp only [partitionLoop, a1, b1, hc, if_true]
    · have hlt : l1 < h1 := by omega
      obtain ⟨s1, c1, c2, c3, c4, c5⟩ :=
        swapAt_rearranged lo hi s l1 h1 yl yh a4 b4 (by omega) (by omega) (by omega) (by omega)
      have c4 := c4 (by omega)
      have hlen : s1.length = s.length := c2.1
      obtain ⟨s2, p, d1, d2, d3, d4⟩ :=
        ih s1 (l1 + 1) (h1 - 1) hlo (by omega) (by omega) (by omega) (by omega) (by omega)
          ⟨h1, yl, by omega, by omega, c3, a5, Or.inr (by omega)⟩
          ⟨l1, yh, by omega, by omega, c4, b5⟩
      refine ⟨s2, p, ?_, c2.trans d2, d3, d4⟩
      simp only [partitionLoop, a1, b1, hc, if_false, c1]
      exact d1

/-- For indices with `0 <= lo < hi < size` the function `partition` returns a
split point `p` with `lo <= p < hi` and a rearrangement of the range. -/
theorem partition_frame (fuel : Nat) (s : List Bid) (lo hi : Int)
    (h0 : 0 ≤ lo) (hlt : lo < hi) (hlen : hi < s.length) (hf : hi - lo + 1 < fuel) :
    ∃ s1 p, partition fuel s lo hi = .ok (s1, p) ∧ Rearranged lo hi s s1 ∧
      lo ≤ p ∧ p < hi := by
  have hmid : (hi - lo).tdiv 2 = (hi - lo) / 2 := Int.tdiv_eq_ediv (by omega) (by omega)
  obtain ⟨pivot, hp⟩ := vectorAt_ok_of_bounds s (lo + (hi - lo) / 2) (by omega) (by omega)
  have hself : stringCompare pivot.title pivot.title ≠ -1 := by
    rw [stringCompare_self]; omega
  obtain ⟨s1, p, e1, e2, e3, e4⟩ :=
    partitionLoop_frame fuel pivot lo hi hf fuel s lo hi h0 hlen (le_refl _) (le_refl _)
      (by omega) hf
      ⟨lo + (hi - lo) / 2, pivot, by omega, by omega, hp, hself, Or.inl (by omega)⟩
      ⟨lo + (hi - lo) / 2, pivot, by omega, by omega, hp, hself⟩
  refine ⟨s1, p, ?_, e2, e3, e4⟩
  simp only [partition, hmid, hp]
  exact e1

/-! ## The function `quickSort` -/

/-- With enough fuel `quickSort` returns, and what it returns is a
rearrangement of the range. -/
theorem quickSort_frame :
    ∀ (fuel : Nat) (s : List Bid) (lo hi : Int),
      (lo < hi → 0 ≤ lo ∧ hi < s.length) → 0 < fuel → hi - lo + 2 < fuel →
      ∃ s1, quickSort fuel s lo hi = .ok s1 ∧ Rearranged lo hi s s1 := by
  intro fuel
  induction fuel with
  | zero => intro s lo hi _ h; omega
  | succ n ih =>
    intro s lo hi hr _ hf
    by_cases hc : lo ≥ hi
    · refine ⟨s, ?_, Rearranged.refl _ _ _⟩
      simp only [quickSort, hc, if_true]
    · have hlt : lo < hi := by omega
      obtain ⟨h0, hlen⟩ := hr hlt
      obtain ⟨s1, p, a1, a2, a3, a4⟩ := partition_frame n s lo hi h0 hlt hlen (by omega)
      have len1 : s1.length = s.length := a2.1
      obtain ⟨s2, b1, b2⟩ := ih s1 lo p (fun _ => ⟨h0, by omega⟩) (by omega) (by omega)
      have len2 : s2.length = s1.length := b2.1
      obtain ⟨s3, c1, c2⟩ :=
        ih s2 (p + 1) hi (fun _ => ⟨by omega, by omega⟩) (by omega) (by omega)
      refine ⟨s3, ?_, ?_⟩
      · simp only [quickSort, hc, if_false, a1, b1]
        exact c1
      · exact a2.trans ((b2.mono (le_refl _) (by omega)).trans (c2.mono (by omega) (le_refl _)))

/-- The call `quickSort(S, 0, size - 1)` returns a permutation of `S`. -/
theorem quickSortAll_perm (S : List Bid) (fuel : Nat) (hf : S.length + 2 ≤ fuel) :
    ∃ R, quickSortAll fuel S = .ok R ∧ R.Perm S := by
  obtain ⟨R, h1, h2⟩ :=
    quickSort_frame fuel S 0 ((S.length : Int) - 1) (fun _ => ⟨le_refl _, by omega⟩)
      (by omega) (by omega)
  exact ⟨R, h1, h2.2.1⟩

/-- C1 (failing input). On the records titled Banana, Apple, Cherry the call
`quickSort(S, 0, 2)` returns Apple, Cherry, Banana.  The pivot is Apple; the
scan from the right tests `pivot.title.compare(bids.at(h).title) == -1` on
Cherry, where `compare` returns `-2`, so it does not step over Cherry and the
records Banana and Cherry are exchanged.  The titles of the result are not
non-decreasing.  Likewise the sorted vector A, C comes back as C, A. -/
theorem quickSort_leaves_titles_unsorted :
    stringCompare "Apple" "Cherry" = -2 ∧
    quickSortAll 5 [⟨"1", "Banana", "F", 10⟩, ⟨"2", "Apple", "G", 20⟩,
        ⟨"3", "Cherry", "H", 30⟩] =
      .ok [⟨"2", "Apple", "G", 20⟩, ⟨"3", "Cherry", "H", 30⟩, ⟨"1", "Banana", "F", 10⟩] ∧
    ¬ List.Pairwise (fun a b : Bid => a.title ≤ b.title)
      [⟨"2", "Apple", "G", 20⟩, ⟨"3", "Cherry", "H", 30⟩, ⟨"1", "Banana", "F", 10⟩] ∧
    quickSortAll 4 [⟨"1", "A", "F", 10⟩, ⟨"2", "C", "G", 20⟩] =
      .ok [⟨"2", "C", "G", 20⟩, ⟨"1", "A", "F", 10⟩] := by
  refine ⟨by decide, ?_, ?_, ?_⟩
  · show quickSort 5 _ 0 2 = _
    rfl
  · intro h
    have h1 : ("Cherry" : String) ≤ "Banana" :=
      (List.pairwise_cons.mp (List.pairwise_cons.mp h).2).1 ⟨"1", "Banana", "F", 10⟩
        (List.mem_cons_self _ _)
    have h2 : ("Banana" : String) < "Cherry" := (stringCompare_neg _ _).mp (by decide)
    exact absurd h2 (not_lt.mpr h1)
  · show quickSort 4 _ 0 1 = _
    rfl

/-! ## The function `selectionSort` -/

/-- The inner loop returns an index of `[i, size)`, whatever values `compare`
returns. -/
theorem selectionInner_frame (s : List Bid) (i : Nat) :
    ∀ (fuel j : Nat) (m : Int), (i : Int) ≤ m → m < j → j ≤ s.length → s.length - j < fuel →
      ∃ m1, selectionInner s fuel j m = .ok m1 ∧ (i : Int) ≤ m1 ∧ m1 < s.length := by
  intro fuel
  induction fuel with
  | zero => intro j m _ _ _ hf; omega
  | succ n ih =>
    intro j m h1 h2 h3 hf
    by_cases hj : j < s.length
    · have hbj := vectorAt_natCast s j hj
      obtain ⟨y, hm⟩ := vectorAt_ok_of_bounds s m (by omega) (by omega)
      by_cases hc : stringCompare s[j].title y.title = -1
      · obtain ⟨m1, e1, e2, e3⟩ :=
          ih (j + 1) (j : Int) (by omega) (by push_cast; omega) (by omega) (by omega)
        refine ⟨m1, ?_, e2, e3⟩
        simp only [selectionInner, hj, if_true, hbj, hm, hc]
        exact e1
      · obtain ⟨m1, e1, e2, e3⟩ :=
          ih (j + 1) m h1 (by push_cast; omega) (by omega) (by omega)
        refine ⟨m1, ?_, e2, e3⟩
        simp only [selectionInner, hj, if_true, hbj, hm, hc, if_false]
        exact e1
    · refine ⟨m, ?_, h1, by omega⟩
      simp only [selectionInner, hj, if_false]

/-- With enough fuel the outer loop returns a permutation. -/
theorem selectionOuter_frame (inner : Nat) :
    ∀ (fuel i : Nat) (s : List Bid), s.length < inner → i ≤ s.length → s.length - i < fuel →
      ∃ s1, selectionOuter inner fuel i s = .ok s1 ∧ s1.Perm s := by
  intro fuel
  induction fuel with
  | zero => intro i s _ _ hf; omega
  | succ n ih =>
    intro i s hin hi hf
    by_cases hc : i < s.length
    · obtain ⟨m, a1, a2, a3⟩ :=
        selectionInner_frame s i inner (i + 1) (i : Int) (le_refl _) (by push_cast; omega)
          (by omega) (by omega)
      have hbi := vectorAt_natCast s i hc
      obtain ⟨y, hy⟩ := vectorAt_ok_of_bounds s m (by omega) a3
      obtain ⟨s1, b1, b2, b3, -, -, -⟩ := swapAt_spec s (i : Int) m s[i] y hbi hy
      obtain ⟨s2, c1, c2⟩ := ih (i + 1) s1 (by omega) (by omega) (by omega)
      refine ⟨s2, ?_, c2.trans b3⟩
      simp only [selectionOuter, hc, if_true, a1, b1]
      exact c1
    · refine ⟨s, ?_, List.Perm.refl _⟩
      simp only [selectionOuter, hc, if_false]

/-- The function `selectionSort` returns a permutation of its argument. -/
theorem selectionSort_perm (S : List Bid) (fuel : Nat) (hf : S.length + 1 ≤ fuel) :
    ∃ R, selectionSort fuel S = .ok R ∧ R.Perm S :=
  selectionOuter_frame fuel fuel 0 S (by omega) (by omega) (by omega)

/-- C2 (failing input). On the records titled C, A the call
`selectionSort(S)` changes nothing: the inner loop tests
`bids.at(j).title.compare(bids.at(smallInd).title) == -1` on A and C, where
`compare` returns `-2`, so A is not taken as the smaller title.  The result C,
A is not non-decreasing.  The same happens for Cherry, Apple. -/
theorem selectionSort_leaves_titles_unsorted :
    stringCompare "A" "C" = -2 ∧
    selectionSort 3 [⟨"1", "C", "F", 10⟩, ⟨"2", "A", "G", 20⟩] =
      .ok [⟨"1", "C", "F", 10⟩, ⟨"2", "A", "G", 20⟩] ∧
    ¬ List.Pairwise (fun a b : Bid => a.title ≤ b.title)
      [⟨"1", "C", "F", 10⟩, ⟨"2", "A", "G", 20⟩] ∧
    selectionSort 3 [⟨"1", "Cherry", "F", 10⟩, ⟨"2", "Apple", "G", 20⟩] =
      .ok [⟨"1", "Cherry", "F", 10⟩, ⟨"2", "Apple", "G", 20⟩] := by
  refine ⟨by decide, rfl, ?_, rfl⟩
  intro h
  have h1 : ("C" : String) ≤ "A" :=
    (List.pairwise_cons.mp h).1 ⟨"2", "A", "G", 20⟩ (List.mem_cons_self _ _)
  have h2 : ("A" : String) < "C" := (stringCompare_neg _ _).mp (by decide)
  exact absurd h2 (not_lt.mpr h1)

/-! ## Insertion into the tree -/

open BinarySearchTree

theorem addNode_spec (bid : Bid) :
    ∀ t : Tree, t.Live → t ≠ .nil →
      ∃ t1, addNode t bid = .ok t1 ∧ t1.Live ∧ t1 ≠ .nil ∧
        t1.toList.Perm (bid :: t.toList) ∧ (t.Ordered → t1.Ordered) := by
  intro t
  induction t with
  | nil => intro _ h; exact absurd rfl h
  | wild => intro h _; exact absurd h (by simp [Tree.Live])
  | node l b r ihl ihr =>
    intro hlive _
    obtain ⟨hl, hr⟩ := hlive
    by_cases hc : stringCompare b.bidId bid.bidId > 0
    · have hlt : bid.bidId < b.bidId := (stringCompare_pos _ _).mp hc
      cases l with
      | nil =>
        refine ⟨.node (.node .nil bid .nil) b r, ?_, ?_, by simp, ?_, ?_⟩
        · simp only [addNode, hc, if_true]
        · exact ⟨⟨trivial, trivial⟩, hr⟩
        · simp [Tree.toList]
        · intro ho
          obtain ⟨-, o2, -, o4⟩ := ho
          refine ⟨?_, o2, ⟨by simp [Tree.toList], by simp [Tree.toList], trivial, trivial⟩, o4⟩
          intro x hx
          simp [Tree.toList] at hx
          rw [hx]
          exact hlt
      | wild => exact absurd hl (by simp [Tree.Live])
      | node ll lb lr =>
        obtain ⟨l1, e1, e2, e3, e4, e5⟩ := ihl hl (by simp)
        refine ⟨.node l1 b r, ?_, ⟨e2, hr⟩, by simp, ?_, ?_⟩
        · simp only [addNode, hc, if_true] at e1 ⊢
          simp only [e1]
        · simp only [Tree.toList] at e4 ⊢
          exact (List.Perm.append_right _ e4).trans (by simp)
        · intro ho
          obtain ⟨o1, o2, o3, o4⟩ := ho
          refine ⟨?_, o2, e5 o3, o4⟩
          intro x hx
          rcases List.mem_cons.mp (e4.mem_iff.mp hx) with h | h
          · rw [h]; exact hlt
          · exact o1 x h
    · have hle : b.bidId ≤ bid.bidId := not_lt.mp (fun h => hc ((stringCompare_pos _ _).mpr h))
      cases r with
      | nil =>
        refine ⟨.node l b (.node .nil bid .nil), ?_, ?_, by simp, ?_, ?_⟩
        · simp only [addNode, hc, if_false]
        · exact ⟨hl, ⟨trivial, trivial⟩⟩
        · simp only [Tree.toList, List.nil_append]
          have h1 : (l.toList ++ [b] ++ [bid]).Perm (bid :: (l.toList ++ [b])) :=
            List.perm_append_singleton bid _
          simpa using h1
        · intro ho
          obtain ⟨o1, -, o3, -⟩ := ho
          refine ⟨o1, ?_, o3, ⟨by simp [Tree.toList], by simp [Tree.toList], trivial, trivial⟩⟩
          intro x hx
          simp [Tree.toList] at hx
          rw [hx]
          exact hle
      | wild => exact absurd hr (by simp [Tree.Live])
      | node rl rb rr =>
        obtain ⟨r1, e1, e2, e3, e4, e5⟩ := ihr hr (by simp)
        refine ⟨.node l b r1, ?_, ⟨hl, e2⟩, by simp, ?_, ?_⟩
        · simp only [addNode, hc, if_false] at e1 ⊢
          simp only [e1]
        · simp only [Tree.toList] at e4 ⊢
          have h1 : (l.toList ++ b :: r1.toList).Perm
              (l.toList ++ b :: bid :: (rl.toList ++ rb :: rr.toList)) :=
            List.Perm.append_left _ (List.Perm.cons _ e4)
          refine h1.trans ?_
          have h2 : (l.toList ++ b :: bid :: (rl.toList ++ rb :: rr.toList)).Perm
              (bid :: (l.toList ++ [b]) ++ (rl.toList ++ rb :: rr.toList)) := by
            have h3 := @List.perm_middle _ bid (l.toList ++ [b]) (rl.toList ++ rb :: rr.toList)
            simpa using h3
          exact h2.trans (by simp)
        · intro ho
          obtain ⟨o1, o2, o3, o4⟩ := ho
          refine ⟨o1, ?_, o3, e5 o4⟩
          intro x hx
          rcases List.mem_cons.mp (e4.mem_iff.mp hx) with h | h
          · rw [h]; exact hle
          · exact o2 x h

theorem Insert_spec (bid : Bid) (t : Tree) (hlive : t.Live) :
    ∃ t1, Insert t bid = .ok t1 ∧ t1.Live ∧ t1 ≠ .nil ∧
      t1.toList.Perm (bid :: t.toList) ∧ (t.Ordered → t1.Ordered) := by
  cases t with
  | nil =>
    refine ⟨.node .nil bid .nil, rfl, ⟨trivial, trivial⟩, by simp, by simp [Tree.toList], ?_⟩
    intro _
    exact ⟨by simp [Tree.toList], by simp [Tree.toList], trivial, trivial⟩
  | wild => exact absurd hlive (by simp [Tree.Live])
  | node l b r =>
    obtain ⟨t1, e1, e2, e3, e4, e5⟩ := addNode_spec bid (.node l b r) hlive (by simp)
    exact ⟨t1, e1, e2, e3, e4, e5⟩

theorem insertAll_spec :
    ∀ (bids : List Bid) (t : Tree), t.Live →
      ∃ t1, insertAll t bids = .ok t1 ∧ t1.Live ∧
        t1.toList.Perm (bids ++ t.toList) ∧ (t.Ordered → t1.Ordered) := by
  intro bids
  induction bids with
  | nil =>
    intro t hlive
    exact ⟨t, rfl, hlive, by simp, fun h => h⟩
  | cons bid rest ih =>
    intro t hlive
    obtain ⟨t1, a1, a2, -, a4, a5⟩ := Insert_spec bid t hlive
    obtain ⟨t2, b1, b2, b3, b4⟩ := ih t1 a2
    refine ⟨t2, ?_, b2, ?_, fun h => b4 (a5 h)⟩
    · simp only [insertAll, a1]
      exact b1
    · refine b3.trans ?_
      refine (List.Perm.append_left rest a4).trans ?_
      exact @List.perm_middle _ bid rest t.toList

/-! ## Searching the tree -/

/-- In an ordered tree without invalid pointers, a record whose id no other
record of the tree has is found by its id. -/
theorem Search_spec (r : Bid) :
    ∀ t : Tree, t.Live → t.Ordered → r ∈ t.toList →
      (∀ x ∈ t.toList, x.bidId = r.bidId → x = r) → Search t r.bidId = .ok r := by
  intro t
  induction t with
  | nil => intro _ _ hm; simp [Tree.toList] at hm
  | wild => intro h; exact absurd h (by simp [Tree.Live])
  | node l b r1 ihl ihr =>
    intro hlive ho hm hu
    obtain ⟨hl, hr⟩ := hlive
    obtain ⟨o1, o2, o3, o4⟩ := ho
    simp only [Tree.toList, List.mem_append, List.mem_cons] at hm
    by_cases hc : stringCompare b.bidId r.bidId = 0
    · have hid : b.bidId = r.bidId := (stringCompare_eq_zero _ _).mp hc
      have hb : b = r := hu b (by simp [Tree.toList]) hid
      subst hb
      simp only [Search, hc, if_true]
    · have hne : b.bidId ≠ r.bidId := fun h => hc ((stringCompare_eq_zero _ _).mpr h)
      by_cases hlt : stringCompare r.bidId b.bidId < 0
      · have hlt2 : r.bidId < b.bidId := (stringCompare_neg _ _).mp hlt
        have hml : r ∈ l.toList := by
          rcases hm with h | h | h
          · exact h
          · exact absurd (congrArg Bid.bidId h).symm hne
          · exact absurd hlt2 (not_lt.mpr (o2 r h))
        simp only [Search, hc, if_false, hlt, if_true]
        exact ihl hl o3 hml (fun x hx => hu x (by simp [Tree.toList, hx]))
      · have hge : b.bidId ≤ r.bidId := not_lt.mp (fun h => hlt ((stringCompare_neg _ _).mpr h))
        have hmr : r ∈ r1.toList := by
          rcases hm with h | h | h
          · exact absurd (o1 r h) (not_lt.mpr hge)
          · exact absurd (congrArg Bid.bidId h).symm hne
          · exact h
        simp only [Search, hc, if_false, hlt]
        exact ihr hr o4 hmr (fun x hx => hu x (by simp [Tree.toList, hx]))

/-- C3. Records with pairwise distinct ids are inserted one after the other
into an empty tree: every insertion succeeds, and `Search` on the id of any of
the records returns that record, equal in all four fields. -/
theorem Search_after_Insert (bids : List Bid) (hd : (bids.map Bid.bidId).Nodup) :
    ∃ t, insertAll .nil bids = .ok t ∧ ∀ r ∈ bids, Search t r.bidId = .ok r := by
  obtain ⟨t, h1, h2, h3, h4⟩ := insertAll_spec bids .nil trivial
  refine ⟨t, h1, ?_⟩
  intro r hr
  have hperm : t.toList.Perm bids := by simpa [Tree.toList] using h3
  apply Search_spec r t h2 (h4 trivial) (hperm.mem_iff.mpr hr)
  intro x hx hid
  exact List.inj_on_of_nodup_map hd (hperm.mem_iff.mp hx) hr hid

/-- Witness of C3: three records with the ids 100, 50, 150. -/
theorem Search_after_Insert_witness :
    ∃ t, insertAll .nil [⟨"100", "Chair", "General", 10⟩, ⟨"50", "Desk", "General", 20⟩,
        ⟨"150", "Lamp", "Enterprise", 30⟩] = .ok t ∧
      ∀ r ∈ [(⟨"100", "Chair", "General", 10⟩ : Bid), ⟨"50", "Desk", "General", 20⟩,
        ⟨"150", "Lamp", "Enterprise", 30⟩], Search t r.bidId = .ok r :=
  Search_after_Insert _ (by decide)

/-! ## The order of the records in the tree -/

theorem Tree.pairwise_of_ordered :
    ∀ t : Tree, t.Ordered → t.toList.Pairwise (fun a b => a.bidId ≤ b.bidId) := by
  intro t
  induction t with
  | nil => intro _; simp [Tree.toList]
  | wild => intro _; simp [Tree.toList]
  | node l b r ihl ihr =>
    intro ho
    obtain ⟨o1, o2, o3, o4⟩ := ho
    simp only [Tree.toList]
    rw [List.pairwise_append]
    refine ⟨ihl o3, List.pairwise_cons.mpr ⟨o2, ihr o4⟩, ?_⟩
    intro x hx y hy
    rcases List.mem_cons.mp hy with h | h
    · rw [h]; exact le_of_lt (o1 x hx)
    · exact le_trans (le_of_lt (o1 x hx)) (o2 y h)

/-- C5 (failing input). After the insertion of records with the ids 100, 50
and 150 the tree holds the three records, and `InOrder()`, whose body is
empty, enumerates nothing: neither the three records nor any order of
them. -/
theorem InOrder_enumerates_nothing :
    ∃ t, insertAll .nil [⟨"100", "Chair", "General", 10⟩, ⟨"50", "Desk", "General", 20⟩,
        ⟨"150", "Lamp", "Enterprise", 30⟩] = .ok t ∧
      t.toList.Perm [⟨"100", "Chair", "General", 10⟩, ⟨"50", "Desk", "General", 20⟩,
        ⟨"150", "Lamp", "Enterprise", 30⟩] ∧
      inOrder t = [] ∧
      InOrder t = [] ∧
      InOrder t ≠ [⟨"50", "Desk", "General", 20⟩, ⟨"100", "Chair", "General", 10⟩,
        ⟨"150", "Lamp", "Enterprise", 30⟩] := by
  refine ⟨_, rfl, ?_, rfl, rfl, by simp [InOrder]⟩
  decide

/-- After the insertion of any sequence of records into an empty tree, the
records of the tree in the order left subtree, node, right subtree are the
inserted records, each once, in non-decreasing lexicographic order of id. -/
theorem inorder_sequence_after_Insert (bids : List Bid) :
    ∃ t, insertAll .nil bids = .ok t ∧ t.toList.Perm bids ∧
      t.toList.Pairwise (fun a b => a.bidId ≤ b.bidId) := by
  obtain ⟨t, h1, -, h3, h4⟩ := insertAll_spec bids .nil trivial
  exact ⟨t, h1, by simpa [Tree.toList] using h3, Tree.pairwise_of_ordered t (h4 trivial)⟩

/-! ## Removal from the tree -/

/-- C6 (failing input). A single record is inserted into an empty tree and
removed by its id: `removeNode` frees the root node, `Remove` discards the
pointer returned and leaves `root` pointing to the freed node, and the next
`Search` on that id dereferences it instead of reporting not-found. -/
theorem Remove_root_leaves_dangling_root (b : Bid) :
    Insert .nil b = .ok (.node .nil b .nil) ∧
    Remove (.node .nil b .nil) b.bidId = .ok .wild ∧
    Search .wild b.bidId = .error .invalidPointer ∧
    Search .wild b.bidId ≠ .ok Bid.default := by
  have h0 : stringCompare b.bidId b.bidId = 0 := (stringCompare_eq_zero _ _).mpr rfl
  refine ⟨rfl, ?_, rfl, by simp [Search]⟩
  simp [Remove, removeNode, h0]

/-- C7 (failing input). The records with the ids 5, 3 and 1 are inserted and
the id 1 is removed: `removeNode` assigns the result of the call on the null
right child to `root->left`, so the whole left subtree is dropped and the
record with the id 3, which was not removed, is no longer found. -/
theorem Remove_loses_other_record :
    ∃ t t1, insertAll .nil [⟨"5", "Chair", "General", 10⟩, ⟨"3", "Desk", "General", 20⟩,
        ⟨"1", "Lamp", "Enterprise", 30⟩] = .ok t ∧
      Search t "3" = .ok ⟨"3", "Desk", "General", 20⟩ ∧
      Remove t "1" = .ok t1 ∧
      t1 = .node .nil ⟨"5", "Chair", "General", 10⟩ .nil ∧
      Search t1 "3" = .ok Bid.default := by
  exact ⟨_, _, rfl, rfl, rfl, rfl, rfl⟩

/-! ## The hash table -/

/-- C4 (failing input). In a table of capacity 7 the ids 1 and 8 hash to
bucket 1.  The record with the id 8 is inserted second, into the occupied
bucket: `Insert` stores nothing, and `Search` on the id 8 returns the default
record that stands for not-found. -/
theorem Insert_collision_drops_record :
    ∃ ht, (HashTable.new 7).insertAll [⟨"1", "Chair", "General", 10⟩,
        ⟨"8", "Desk", "General", 20⟩] = .ok ht ∧
      ht.hash (atoi "1") = .ok 1 ∧ ht.hash (atoi "8") = .ok 1 ∧
      ht.Search "1" = .ok ⟨"1", "Chair", "General", 10⟩ ∧
      ht.Search "8" = .ok Bid.default := by
  exact ⟨_, rfl, rfl, rfl, rfl, rfl⟩

/-- C8 (failing input). In a table of capacity 1 the record with the id 0 is
inserted and removed: `Remove` erases the only element of `myNodes`, and the
next `Search` on the id 0 fails with `std::out_of_range`.  The same happens
for the id 6 in a table of capacity 7, whose bucket is the last slot. -/
theorem Search_after_Remove_last_slot_throws :
    (∃ ht ht1, (HashTable.new 1).Insert ⟨"0", "Chair", "General", 10⟩ = .ok ht ∧
      ht.Remove "0" = .ok ht1 ∧ ht1.myNodes = [] ∧
      ht1.Search "0" = .error .outOfRange) ∧
    (∃ ht ht1, (HashTable.new 7).Insert ⟨"6", "Chair", "General", 10⟩ = .ok ht ∧
      ht.Remove "6" = .ok ht1 ∧ ht1.myNodes.length = 6 ∧
      ht1.Search "6" = .error .outOfRange) := by
  exact ⟨⟨_, _, rfl, rfl, rfl, rfl⟩, ⟨_, _, rfl, rfl, rfl, rfl⟩⟩

/-- C9 (failing input). In a table of capacity 7 the records with the ids
100, 50 and 150 are in the buckets 2, 1 and 3 and each is found.  After
`Remove("50")` the elements of `myNodes` behind bucket 1 have moved one
position down, and `Search` finds neither the id 100 nor the id 150. -/
theorem Remove_shifts_other_records :
    ∃ ht ht1, (HashTable.new 7).insertAll [⟨"100", "Chair", "General", 10⟩,
        ⟨"50", "Desk", "General", 20⟩, ⟨"150", "Lamp", "Enterprise", 30⟩] = .ok ht ∧
      ht.Search "100" = .ok ⟨"100", "Chair", "General", 10⟩ ∧
      ht.Search "150" = .ok ⟨"150", "Lamp", "Enterprise", 30⟩ ∧
      ht.Remove "50" = .ok ht1 ∧
      ht1.Search "50" = .ok Bid.default ∧
      ht1.Search "100" = .ok Bid.default ∧
      ht1.Search "150" = .ok Bid.default := by
  exact ⟨_, _, rfl, rfl, rfl, rfl, rfl, rfl, rfl⟩

/-- C11. Every tree reached from the empty tree by a sequence of `Insert`
calls satisfies the search-tree ordering: at every node the ids of the left
subtree are less than the node's id and the ids of the right subtree are
greater than or equal to it; and one more `Insert` keeps it so. -/
theorem Insert_keeps_ordering :
    (∀ bids : List Bid, ∃ t, insertAll .nil bids = .ok t ∧ t.Live ∧ t.Ordered) ∧
    (∀ (bids : List Bid) (bid : Bid) (t : Tree), insertAll .nil bids = .ok t →
      ∃ t1, Insert t bid = .ok t1 ∧ t1.Ordered) := by
  constructor
  · intro bids
    obtain ⟨t, h1, h2, -, h4⟩ := insertAll_spec bids .nil trivial
    exact ⟨t, h1, h2, h4 trivial⟩
  · intro bids bid t ht
    obtain ⟨t0, h1, h2, -, h4⟩ := insertAll_spec bids .nil trivial
    rw [ht] at h1
    cases h1
    obtain ⟨t1, e1, -, -, -, e5⟩ := Insert_spec bid t h2
    exact ⟨t1, e1, e5 (h4 trivial)⟩

/-- Witness of C11: the tree built from the ids 100, 50, 150 and one more
insertion, of the id 100 again. -/
theorem Insert_keeps_ordering_witness :
    ∃ t1, Insert (.node .nil ⟨"100", "Chair", "General", 10⟩
        (.node (.node .nil ⟨"150", "Lamp", "Enterprise", 30⟩ .nil)
          ⟨"50", "Desk", "General", 20⟩ .nil)) ⟨"100", "Stool", "General", 5⟩ = .ok t1 ∧
      t1.Ordered :=
  Insert_keeps_ordering.2 [⟨"100", "Chair", "General", 10⟩, ⟨"50", "Desk", "General", 20⟩,
    ⟨"150", "Lamp", "Enterprise", 30⟩] ⟨"100", "Stool", "General", 5⟩ _ rfl

/-! ## Termination of `quickSort` -/

/-- C12. For every vector of `n` records `quickSort(bids, 0, n - 1)`
terminates: fuel `n + 2` is never used up, whatever the order of the titles
(sorted, reverse-sorted, all equal); the loops of `partition` terminate within
the fuel `end - begin + 2`, and the two recursive calls are on the ranges
`[begin, p]` and `[p + 1, end]`, both strictly shorter than `[begin, end]`. -/
theorem quickSort_terminates :
    (∀ (S : List Bid) (fuel : Nat), S.length + 2 ≤ fuel →
      ∃ R, quickSortAll fuel S = .ok R) ∧
    (∀ (fuel : Nat) (s : List Bid) (lo hi : Int),
      0 ≤ lo → lo < hi → hi < s.length → hi - lo + 1 < fuel →
      ∃ s1 p, partition fuel s lo hi = .ok (s1, p) ∧ s1.length = s.length ∧
        lo ≤ p ∧ p < hi ∧ p - lo < hi - lo ∧ hi - (p + 1) < hi - lo) := by
  constructor
  · intro S fuel hf
    obtain ⟨R, h1, -⟩ := quickSortAll_perm S fuel hf
    exact ⟨R, h1⟩
  · intro fuel s lo hi h0 hlt hlen hf
    obtain ⟨s1, p, a1, a2, a3, a4⟩ := partition_frame fuel s lo hi h0 hlt hlen hf
    exact ⟨s1, p, a1, a2.1, a3, a4, by omega, by omega⟩

/-- Witness of C12: a sorted, a reverse-sorted and an all-equal vector of three
records, and `partition` on the first of them. -/
theorem quickSort_terminates_witness :
    (∃ R, quickSortAll 5 [⟨"1", "A", "F", 1⟩, ⟨"2", "B", "F", 2⟩, ⟨"3", "C", "F", 3⟩] = .ok R) ∧
    (∃ R, quickSortAll 5 [⟨"1", "C", "F", 1⟩, ⟨"2", "B", "F", 2⟩, ⟨"3", "A", "F", 3⟩] = .ok R) ∧
    (∃ R, quickSortAll 5 [⟨"1", "A", "F", 1⟩, ⟨"2", "A", "F", 2⟩, ⟨"3", "A", "F", 3⟩] = .ok R) ∧
    (∃ s1 p, partition 4 [⟨"1", "A", "F", 1⟩, ⟨"2", "B", "F", 2⟩, ⟨"3", "C", "F", 3⟩] 0 2 =
        .ok (s1, p) ∧
      s1.length = [(⟨"1", "A", "F", 1⟩ : Bid), ⟨"2", "B", "F", 2⟩, ⟨"3", "C", "F", 3⟩].length ∧
      0 ≤ p ∧ p < 2 ∧ p - 0 < 2 - 0 ∧ 2 - (p + 1) < 2 - 0) :=
  ⟨quickSort_terminates.1 _ 5 (by decide), quickSort_terminates.1 _ 5 (by decide),
   quickSort_terminates.1 _ 5 (by decide),
   quickSort_terminates.2 4 _ 0 2 (by decide) (by decide) (by decide) (by decide)⟩

/-! ## Sorting twice -/

/-- C13 (counterexample). Two records with the same title: `quickSort`
exchanges them, so the second run undoes the first and the result of two runs
differs from the result of one. -/
theorem quickSort_twice_counterexample :
    quickSortAll 4 [⟨"1", "Chair", "General", 10⟩, ⟨"2", "Chair", "Enterprise", 20⟩] =
      .ok [⟨"2", "Chair", "Enterprise", 20⟩, ⟨"1", "Chair", "General", 10⟩] ∧
    quickSortAll 4 [⟨"2", "Chair", "Enterprise", 20⟩, ⟨"1", "Chair", "General", 10⟩] =
      .ok [⟨"1", "Chair", "General", 10⟩, ⟨"2", "Chair", "Enterprise", 20⟩] ∧
    ([⟨"1", "Chair", "General", 10⟩, ⟨"2", "Chair", "Enterprise", 20⟩] : List Bid) ≠
      [⟨"2", "Chair", "Enterprise", 20⟩, ⟨"1", "Chair", "General", 10⟩] := by
  refine ⟨?_, ?_, by decide⟩
  · show quickSort 4 _ 0 1 = _
    rfl
  · show quickSort 4 _ 0 1 = _
    rfl

/-- C13 (amended). `quickSort` is not idempotent on whole records: a second
run returns a permutation of the result of the first run, and a run exchanges
records that share a title: two records with the same title come back in the
opposite order. -/
theorem quickSort_twice :
    (∀ (S : List Bid) (fuel : Nat), S.length + 2 ≤ fuel →
      ∃ R1 R2, quickSortAll fuel S = .ok R1 ∧ quickSortAll fuel R1 = .ok R2 ∧
        R2.Perm R1) ∧
    (∀ (r1 r2 : Bid) (fuel : Nat), r1.title = r2.title → 4 ≤ fuel →
      quickSortAll fuel [r1, r2] = .ok [r2, r1]) := by
  constructor
  · intro S fuel hf
    obtain ⟨R1, a1, a2⟩ := quickSortAll_perm S fuel hf
    have hlen : R1.length = S.length := a2.length_eq
    obtain ⟨R2, b1, b2⟩ := quickSortAll_perm R1 fuel (by omega)
    exact ⟨R1, R2, a1, b1, b2⟩
  · intro r1 r2 fuel ht hf
    obtain ⟨n, rfl⟩ : ∃ n, fuel = n + 4 := ⟨fuel - 4, by omega⟩
    have h11 : stringCompare r1.title r1.title = 0 := stringCompare_self _
    have h12 : stringCompare r1.title r2.title = 0 := by rw [ht]; exact stringCompare_self _
    have h21 : stringCompare r2.title r1.title = 0 := by rw [ht]; exact stringCompare_self _
    have v0 : vectorAt [r1, r2] 0 = .ok r1 := rfl
    have v1 : vectorAt [r1, r2] 1 = .ok r2 := rfl
    have w0 : vectorAt [r2, r1] 0 = .ok r2 := rfl
    have w1 : vectorAt [r2, r1] 1 = .ok r1 := rfl
    have hm : (0 : Int) + ((1 : Int) - 0).tdiv 2 = 0 := by decide
    have sl1 : scanLow [r1, r2] r1 (n + 3) 0 = .ok 0 := by
      simp [scanLow, v0, h11]
    have sh1 : scanHigh [r1, r2] r1 (n + 3) 1 = .ok 1 := by
      simp [scanHigh, v1, h12]
    have sw : swapAt [r1, r2] 0 1 = .ok [r2, r1] := by
      simp [swapAt, v0, v1]
    have sl2 : scanLow [r2, r1] r1 (n + 3) 1 = .ok 1 := by
      simp [scanLow, w1, h11]
    have sh2 : scanHigh [r2, r1] r1 (n + 3) 0 = .ok 0 := by
      simp [scanHigh, w0, h12]
    have hp : partition (n + 3) [r1, r2] 0 1 = .ok ([r2, r1], 0) := by
      simp only [partition, hm, v0]
      simp [partitionLoop, sl1, sh1, sw, sl2, sh2]
    show quickSort (n + 4) [r1, r2] 0 ((2 : Nat) - 1 : Int) = _
    simp [quickSort, hp]

/-- Witness of the amended C13: two records with the same title, fuel 4. -/
theorem quickSort_twice_witness :
    (∃ R1 R2, quickSortAll 4 [⟨"1", "Chair", "General", 10⟩,
        ⟨"2", "Chair", "Enterprise", 20⟩] = .ok R1 ∧
      quickSortAll 4 R1 = .ok R2 ∧ R2.Perm R1) ∧
    quickSortAll 4 [⟨"1", "Chair", "General", 10⟩, ⟨"2", "Chair", "Enterprise", 20⟩] =
      .ok [⟨"2", "Chair", "Enterprise", 20⟩, ⟨"1", "Chair", "General", 10⟩] :=
  ⟨quickSort_twice.1 _ 4 (by decide),
   quickSort_twice.2 ⟨"1", "Chair", "General", 10⟩ ⟨"2", "Chair", "Enterprise", 20⟩ 4 rfl
     (by decide)⟩

/-! ## Selection sort on a sorted vector -/

theorem set_getElem_same (s : List Bid) (i : Nat) (hi : i < s.length) : s.set i s[i] = s := by
  apply List.ext_getElem?
  intro n
  rw [List.getElem?_set]
  split_ifs with h
  · subst h
    exact (List.getElem?_eq_getElem hi).symm
  · rfl

/-- The swap of a position with itself leaves the vector as it is. -/
theorem swapAt_self (s : List Bid) (i : Nat) (hi : i < s.length) :
    swapAt s (i : Int) (i : Int) = .ok s := by
  have hat := vectorAt_natCast s i hi
  simp only [swapAt, hat, Int.toNat_ofNat]
  congr 1
  have h1 : s.set i s[i] = s := set_getElem_same s i hi
  rw [h1, h1]

/-- When no title of `[i, size)` is less than the title at `i`, the inner loop
started with `smallInd = i` returns `i`. -/
theorem selectionInner_sorted (s : List Bid) (i : Nat) (hi : i < s.length)
    (hmin : ∀ k (hk : k < s.length), i ≤ k → s[i].title ≤ s[k].title) :
    ∀ (fuel j : Nat), i < j → j ≤ s.length → s.length - j < fuel →
      selectionInner s fuel j (i : Int) = .ok (i : Int) := by
  intro fuel
  induction fuel with
  | zero => intro j _ _ hf; omega
  | succ n ih =>
    intro j hij hj hf
    by_cases hc : j < s.length
    · have hbj := vectorAt_natCast s j hc
      have hbi := vectorAt_natCast s i hi
      have hnot : ¬ stringCompare s[j].title s[i].title = -1 := by
        intro h
        exact absurd (lt_of_stringCompare_eq_neg_one _ _ h) (not_lt.mpr (hmin j hc (by omega)))
      simp only [selectionInner, hc, if_true, hbj, hbi, hnot, if_false]
      exact ih (j + 1) (by omega) (by omega) (by omega)
    · simp only [selectionInner, hc, if_false]

/-- On a vector whose titles are non-decreasing the outer loop changes
nothing. -/
theorem selectionOuter_sorted (inner : Nat) (s : List Bid)
    (hs : s.Pairwise (fun a b => a.title ≤ b.title)) (hin : s.length < inner) :
    ∀ (fuel i : Nat), i ≤ s.length → s.length - i < fuel →
      selectionOuter inner fuel i s = .ok s := by
  intro fuel
  induction fuel with
  | zero => intro i _ hf; omega
  | succ n ih =>
    intro i hi hf
    by_cases hc : i < s.length
    · have hmin : ∀ k (hk : k < s.length), i ≤ k → s[i].title ≤ s[k].title := by
        intro k hk hik
        by_cases hik2 : i = k
        · subst hik2
          exact le_refl _
        · exact (List.pairwise_iff_getElem.mp hs) i k hc hk (by omega)
      have h1 := selectionInner_sorted s i hc hmin inner (i + 1) (by omega) (by omega) (by omega)
      simp only [selectionOuter, hc, if_true, h1, swapAt_self s i hc]
      exact ih (i + 1) (by omega) (by omega)
    · simp only [selectionOuter, hc, if_false]

/-- The function `selectionSort` returns a vector whose titles are already
non-decreasing unchanged, records with equal titles included. -/
theorem selectionSort_sorted_unchanged (S : List Bid) (fuel : Nat) (hf : S.length + 1 ≤ fuel)
    (hs : S.Pairwise (fun a b => a.title ≤ b.title)) : selectionSort fuel S = .ok S :=
  selectionOuter_sorted fuel S hs (by omega) fuel 0 (by omega) (by omega)

/-- C14 (failing input). On the records titled C, A, B a first run of
`selectionSort` returns B, A, C and a second run returns A, B, C: the two
differ.  In the first run the test `== -1` misses A against C, where
`compare` returns `-2`, and takes B, so the first run does not sort. -/
theorem selectionSort_twice_differs :
    stringCompare "A" "C" = -2 ∧ stringCompare "B" "C" = -1 ∧
    selectionSort 4 [⟨"1", "C", "F", 10⟩, ⟨"2", "A", "G", 20⟩, ⟨"3", "B", "H", 30⟩] =
      .ok [⟨"3", "B", "H", 30⟩, ⟨"2", "A", "G", 20⟩, ⟨"1", "C", "F", 10⟩] ∧
    selectionSort 4 [⟨"3", "B", "H", 30⟩, ⟨"2", "A", "G", 20⟩, ⟨"1", "C", "F", 10⟩] =
      .ok [⟨"2", "A", "G", 20⟩, ⟨"3", "B", "H", 30⟩, ⟨"1", "C", "F", 10⟩] ∧
    ([⟨"3", "B", "H", 30⟩, ⟨"2", "A", "G", 20⟩, ⟨"1", "C", "F", 10⟩] : List Bid) ≠
      [⟨"2", "A", "G", 20⟩, ⟨"3", "B", "H", 30⟩, ⟨"1", "C", "F", 10⟩] := by
  exact ⟨by decide, by decide, rfl, rfl, by decide⟩

/-! ## Slices of a vector -/

theorem getElem?_eq_of_vectorAt_eq {α : Type} (v w : List α) (i : Int) (h0 : 0 ≤ i)
    (h : vectorAt v i = vectorAt w i) : v[i.toNat]? = w[i.toNat]? := by
  unfold vectorAt at h
  have hn : ¬ i < 0 := by omega
  simp only [hn, if_false] at h
  cases hv : v[i.toNat]? with
  | none =>
    cases hw : w[i.toNat]? with
    | none => rfl
    | some y => rw [hv, hw] at h; cases h
  | some x =>
    cases hw : w[i.toNat]? with
    | none => rw [hv, hw] at h; cases h
    | some y => rw [hv, hw] at h; cases h; rfl

theorem vectorAt_out {α : Type} (v : List α) (i : Int) (h : i < 0 ∨ (v.length : Int) ≤ i) :
    vectorAt v i = .error .outOfRange := by
  unfold vectorAt
  by_cases h0 : i < 0
  · simp [h0]
  · have h1 : v.length ≤ i.toNat := by omega
    simp [h0, List.getElem?_eq_none h1]

theorem ext_of_vectorAt {α : Type} (v w : List α) (h : ∀ i, vectorAt v i = vectorAt w i) :
    v = w := by
  apply List.ext_getElem?
  intro n
  have h1 := getElem?_eq_of_vectorAt_eq v w (n : Int) (by omega) (h n)
  simpa using h1

theorem slice_length (s : List Bid) (lo hi : Int) (h0 : 0 ≤ lo) (h1 : lo ≤ hi + 1)
    (h2 : hi < s.length) : ((slice s lo hi).length : Int) = hi - lo + 1 := by
  simp only [slice, List.length_take, List.length_drop]
  omega

theorem vectorAt_eq_of_getElem? {α : Type} (v w : List α) (i j : Int) (hi : 0 ≤ i)
    (hj : 0 ≤ j) (h : v[i.toNat]? = w[j.toNat]?) : vectorAt v i = vectorAt w j := by
  unfold vectorAt
  have h1 : ¬ i < 0 := by omega
  have h2 : ¬ j < 0 := by omega
  simp only [h1, h2, if_false, h]

theorem vectorAt_slice (s : List Bid) (lo hi i : Int) (h0 : 0 ≤ lo) (hi0 : 0 ≤ i)
    (hi1 : i ≤ hi - lo) : vectorAt (slice s lo hi) i = vectorAt s (i + lo) := by
  apply vectorAt_eq_of_getElem? _ _ _ _ hi0 (by omega)
  have h1 : i.toNat < (hi - lo + 1).toNat := by omega
  have h2 : (i + lo).toNat = lo.toNat + i.toNat := by omega
  simp only [slice, List.getElem?_take, h1, if_true, List.getElem?_drop, h2]

/-- A vector is the part before a slice, the slice, and the part after it. -/
theorem slice_decomp (s : List Bid) (lo hi : Int) (h0 : 0 ≤ lo) (h1 : lo ≤ hi + 1) :
    s = s.take lo.toNat ++ slice s lo hi ++ s.drop (hi + 1).toNat := by
  have h2 : (hi + 1).toNat = lo.toNat + (hi - lo + 1).toNat := by omega
  unfold slice
  rw [h2, ← List.drop_drop, List.append_assoc, List.take_append_drop, List.take_append_drop]

/-- A rearrangement of a range permutes the slice of that range. -/
theorem Rearranged.slice_perm {lo hi : Int} {s t : List Bid} (h : Rearranged lo hi s t)
    (h0 : 0 ≤ lo) (h1 : lo ≤ hi + 1) : (slice t lo hi).Perm (slice s lo hi) := by
  obtain ⟨hlen, hperm, hout, -⟩ := h
  have e1 : t.take lo.toNat = s.take lo.toNat := by
    apply List.ext_getElem?
    intro n
    rw [List.getElem?_take, List.getElem?_take]
    split_ifs with hn
    · have h3 := getElem?_eq_of_vectorAt_eq t s (n : Int) (by omega) (hout n (Or.inl (by omega)))
      simpa using h3
    · rfl
  have e2 : t.drop (hi + 1).toNat = s.drop (hi + 1).toNat := by
    apply List.ext_getElem?
    intro n
    rw [List.getElem?_drop, List.getElem?_drop]
    have h3 := getElem?_eq_of_vectorAt_eq t s (((hi + 1).toNat + n : Nat) : Int) (by omega)
      (hout _ (Or.inr (by omega)))
    rw [Int.toNat_ofNat] at h3
    exact h3
  have d1 := slice_decomp s lo hi h0 h1
  have d2 := slice_decomp t lo hi h0 h1
  rw [e1, e2] at d2
  rw [d1] at hperm
  have hperm2 : (s.take lo.toNat ++ slice t lo hi ++ s.drop (hi + 1).toNat).Perm
      (s.take lo.toNat ++ slice s lo hi ++ s.drop (hi + 1).toNat) := by
    rw [← d2]; exact hperm
  exact (List.perm_append_left_iff _).mp ((List.perm_append_right_iff _).mp hperm2)

/-! ## The run of `partition` on the slice alone -/

theorem scanLow_shift (small big : List Bid) (pivot : Bid) (k : Int)
    (hw : ∀ i x, vectorAt small i = .ok x → vectorAt big (i + k) = .ok x) :
    ∀ (fuel : Nat) (l l1 : Int), scanLow small pivot fuel l = .ok l1 →
      scanLow big pivot fuel (l + k) = .ok (l1 + k) := by
  intro fuel
  induction fuel with
  | zero => intro l l1 h; simp [scanLow] at h
  | succ n ih =>
    intro l l1 h
    simp only [scanLow] at h ⊢
    cases hb : vectorAt small l with
    | error e => rw [hb] at h; cases h
    | ok b =>
      rw [hb] at h
      rw [hw l b hb]
      simp only at h ⊢
      by_cases hc : stringCompare b.title pivot.title = -1
      · simp only [hc, if_true] at h ⊢
        have h2 := ih (l + 1) l1 h
        have e : l + 1 + k = l + k + 1 := by ring
        rw [e] at h2
        exact h2
      · simp only [hc, if_false] at h ⊢
        cases h
        rfl

theorem scanHigh_shift (small big : List Bid) (pivot : Bid) (k : Int)
    (hw : ∀ i x, vectorAt small i = .ok x → vectorAt big (i + k) = .ok x) :
    ∀ (fuel : Nat) (h h1 : Int), scanHigh small pivot fuel h = .ok h1 →
      scanHigh big pivot fuel (h + k) = .ok (h1 + k) := by
  intro fuel
  induction fuel with
  | zero => intro h h1 hs; simp [scanHigh] at hs
  | succ n ih =>
    intro h h1 hs
    simp only [scanHigh] at hs ⊢
    cases hb : vectorAt small h with
    | error e => rw [hb] at hs; cases hs
    | ok b =>
      rw [hb] at hs
      rw [hw h b hb]
      simp only at hs ⊢
      by_cases hc : stringCompare pivot.title b.title = -1
      · simp only [hc, if_true] at hs ⊢
        have h2 := ih (h - 1) h1 hs
        have e : h - 1 + k = h + k - 1 := by ring
        rw [e] at h2
        exact h2
      · simp only [hc, if_false] at hs ⊢
        cases hs
        rfl

theorem swapAt_shift (small big : List Bid) (k l h : Int) (small1 : List Bid)
    (hw : ∀ i x, vectorAt small i = .ok x → vectorAt big (i + k) = .ok x)
    (hs : swapAt small l h = .ok small1) :
    ∃ big1, swapAt big (l + k) (h + k) = .ok big1 ∧
      (∀ i x, vectorAt small1 i = .ok x → vectorAt big1 (i + k) = .ok x) := by
  cases hx : vectorAt small l with
  | error e => simp [swapAt, hx] at hs
  | ok x =>
    cases hy : vectorAt small h with
    | error e => simp [swapAt, hx, hy] at hs
    | ok y =>
      obtain ⟨s1, a1, a2, a3, a4, a5, a6⟩ := swapAt_spec small l h x y hx hy
      rw [hs] at a1
      cases a1
      obtain ⟨b1, c1, c2, c3, c4, c5, c6⟩ :=
        swapAt_spec big (l + k) (h + k) x y (hw l x hx) (hw h y hy)
      refine ⟨b1, c1, ?_⟩
      intro i z hz
      by_cases ih : i = h
      · subst ih
        rw [a4] at hz
        cases hz
        exact c4
      · by_cases il : i = l
        · subst il
          rw [a5 (fun e => ih e)] at hz
          cases hz
          exact c5 (by omega)
        · rw [a6 i il ih] at hz
          rw [c6 (i + k) (by omega) (by omega)]
          exact hw i z hz

theorem partitionLoop_shift (inner : Nat) (pivot : Bid) (k : Int) :
    ∀ (fuel : Nat) (small big : List Bid) (l h : Int) (small1 : List Bid) (p : Int),
      (∀ i x, vectorAt small i = .ok x → vectorAt big (i + k) = .ok x) →
      partitionLoop inner pivot fuel small l h = .ok (small1, p) →
      ∃ big1, partitionLoop inner pivot fuel big (l + k) (h + k) = .ok (big1, p + k) ∧
        (∀ i x, vectorAt small1 i = .ok x → vectorAt big1 (i + k) = .ok x) := by
  intro fuel
  induction fuel with
  | zero => intro small big l h small1 p _ hs; simp [partitionLoop] at hs
  | succ n ih =>
    intro small big l h small1 p hw hs
    simp only [partitionLoop] at hs ⊢
    cases hl : scanLow small pivot inner l with
    | error e => rw [hl] at hs; cases hs
    | ok l1 =>
      rw [hl] at hs
      rw [scanLow_shift small big pivot k hw inner l l1 hl]
      simp only at hs ⊢
      cases hh : scanHigh small pivot inner h with
      | error e => rw [hh] at hs; cases hs
      | ok h1 =>
        rw [hh] at hs
        rw [scanHigh_shift small big pivot k hw inner h h1 hh]
        simp only at hs ⊢
        by_cases hc : l1 ≥ h1
        · have hc2 : l1 + k ≥ h1 + k := by omega
          simp only [hc, hc2, if_true] at hs ⊢
          cases hs
          exact ⟨big, rfl, hw⟩
        · have hc2 : ¬ l1 + k ≥ h1 + k := by omega
          simp only [hc, hc2, if_false] at hs ⊢
          cases hsw : swapAt small l1 h1 with
          | error e => rw [hsw] at hs; cases hs
          | ok small2 =>
            rw [hsw] at hs
            obtain ⟨big2, d1, d2⟩ := swapAt_shift small big k l1 h1 small2 hw hsw
            rw [d1]
            simp only at hs ⊢
            have h3 := ih small2 big2 (l1 + 1) (h1 - 1) small1 p d2 hs
            have e1 : l1 + 1 + k = l1 + k + 1 := by ring
            have e2 : h1 - 1 + k = h1 + k - 1 := by ring
            rw [e1, e2] at h3
            exact h3

theorem partition_shift (fuel : Nat) (small big : List Bid) (k lo hi : Int)
    (small1 : List Bid) (p : Int)
    (hw : ∀ i x, vectorAt small i = .ok x → vectorAt big (i + k) = .ok x)
    (hs : partition fuel small lo hi = .ok (small1, p)) :
    ∃ big1, partition fuel big (lo + k) (hi + k) = .ok (big1, p + k) ∧
      (∀ i x, vectorAt small1 i = .ok x → vectorAt big1 (i + k) = .ok x) := by
  simp only [partition] at hs ⊢
  have e : hi + k - (lo + k) = hi - lo := by ring
  have e2 : lo + k + (hi - lo).tdiv 2 = lo + (hi - lo).tdiv 2 + k := by ring
  rw [e, e2]
  cases hp : vectorAt small (lo + (hi - lo).tdiv 2) with
  | error e => rw [hp] at hs; cases hs
  | ok pivot =>
    rw [hp] at hs
    rw [hw _ pivot hp]
    simp only at hs ⊢
    exact partitionLoop_shift fuel pivot k fuel small big lo hi small1 p hw hs

/-- C18. For indices with `0 <= begin < end < size` the call
`partition(bids, begin, end)` returns, so no call of `bids.at` is out of
range; the returned `h` satisfies `begin <= h < end`; every position outside
`[begin, end]` keeps its element; and the call on the vector that consists of
the positions `begin`, ..., `end` alone, where every access outside the range
would throw, returns as well, with the same elements and the same split point
(counted from `begin`): no position outside `[begin, end]` is read or
written. -/
theorem partition_stays_in_range (fuel : Nat) (s : List Bid) (lo hi : Int)
    (h0 : 0 ≤ lo) (hlt : lo < hi) (hlen : hi < s.length) (hf : hi - lo + 1 < fuel) :
    ∃ s1 p, partition fuel s lo hi = .ok (s1, p) ∧ lo ≤ p ∧ p < hi ∧
      s1.length = s.length ∧
      (∀ i, (i < lo ∨ hi < i) → vectorAt s1 i = vectorAt s i) ∧
      partition fuel (slice s lo hi) 0 (hi - lo) = .ok (slice s1 lo hi, p - lo) := by
  have hsl : ((slice s lo hi).length : Int) = hi - lo + 1 :=
    slice_length s lo hi h0 (by omega) hlen
  obtain ⟨small1, q, a1, a2, a3, a4⟩ :=
    partition_frame fuel (slice s lo hi) 0 (hi - lo) (le_refl _) (by omega) (by omega) (by omega)
  have hw : ∀ i x, vectorAt (slice s lo hi) i = .ok x → vectorAt s (i + lo) = .ok x := by
    intro i x hx
    have hb := vectorAt_bounds hx
    rw [← vectorAt_slice s lo hi i h0 hb.1 (by omega)]
    exact hx
  obtain ⟨big1, b1, b2⟩ := partition_shift fuel (slice s lo hi) s lo 0 (hi - lo) small1 q hw a1
  have e1 : (0 : Int) + lo = lo := by ring
  have e2 : hi - lo + lo = hi := by ring
  rw [e1, e2] at b1
  obtain ⟨s1, p, c1, c2, c3, c4⟩ := partition_frame fuel s lo hi h0 hlt hlen hf
  rw [b1] at c1
  cases c1
  have hlen1 : big1.length = s.length := c2.1
  have hsl1 : ((slice big1 lo hi).length : Int) = hi - lo + 1 :=
    slice_length big1 lo hi h0 (by omega) (by omega)
  have hsm1 : (small1.length : Int) = hi - lo + 1 := by rw [a2.1]; exact hsl
  refine ⟨big1, q + lo, b1, c3, c4, hlen1, c2.2.2.1, ?_⟩
  have hsame : slice big1 lo hi = small1 := by
    apply ext_of_vectorAt
    intro i
    by_cases hi0 : i < 0
    · rw [vectorAt_out _ i (Or.inl hi0), vectorAt_out _ i (Or.inl hi0)]
    · by_cases hi1 : i ≤ hi - lo
      · rw [vectorAt_slice big1 lo hi i h0 (by omega) hi1]
        obtain ⟨x, hx⟩ := vectorAt_ok_of_bounds small1 i (by omega) (by omega)
        rw [hx]
        exact b2 i x hx
      · rw [vectorAt_out _ i (Or.inr (by omega)), vectorAt_out _ i (Or.inr (by omega))]
  have e3 : q + lo - lo = q := by ring
  rw [hsame, e3]
  exact a1

/-- Witness of C18: the positions 1 to 3 of a vector of five records. -/
theorem partition_stays_in_range_witness :
    ∃ s1 p, partition 4 [⟨"1", "E", "F", 1⟩, ⟨"2", "D", "F", 2⟩, ⟨"3", "C", "F", 3⟩,
        ⟨"4", "B", "F", 4⟩, ⟨"5", "A", "F", 5⟩] 1 3 = .ok (s1, p) ∧ 1 ≤ p ∧ p < 3 ∧
      s1.length = [(⟨"1", "E", "F", 1⟩ : Bid), ⟨"2", "D", "F", 2⟩, ⟨"3", "C", "F", 3⟩,
        ⟨"4", "B", "F", 4⟩, ⟨"5", "A", "F", 5⟩].length ∧
      (∀ i, (i < 1 ∨ 3 < i) → vectorAt s1 i =
        vectorAt [(⟨"1", "E", "F", 1⟩ : Bid), ⟨"2", "D", "F", 2⟩, ⟨"3", "C", "F", 3⟩,
          ⟨"4", "B", "F", 4⟩, ⟨"5", "A", "F", 5⟩] i) ∧
      partition 4 (slice [⟨"1", "E", "F", 1⟩, ⟨"2", "D", "F", 2⟩, ⟨"3", "C", "F", 3⟩,
        ⟨"4", "B", "F", 4⟩, ⟨"5", "A", "F", 5⟩] 1 3) 0 (3 - 1) = .ok (slice s1 1 3, p - 1) :=
  partition_stays_in_range 4 _ 1 3 (by decide) (by decide) (by decide) (by decide)

/-- C19 (failing input). On the records titled A, ABC the call
`partition(bids, 0, 1)` returns the split point 0 and leaves ABC, A: the title
at position 0 is greater than the title at position 1.  The pivot is A; the
scan from the right tests `pivot.title.compare(bids.at(h).title) == -1` on
ABC, where `compare` returns `-2`, so the two records are exchanged. -/
theorem partition_leaves_greater_title_left :
    stringCompare "A" "ABC" = -2 ∧
    partition 3 [⟨"1", "A", "F", 10⟩, ⟨"2", "ABC", "G", 20⟩] 0 1 =
      .ok ([⟨"2", "ABC", "G", 20⟩, ⟨"1", "A", "F", 10⟩], 0) ∧
    ¬ (("ABC" : String) ≤ "A") := by
  refine ⟨by decide, rfl, ?_⟩
  have h2 : ("A" : String) < "ABC" := (stringCompare_neg _ _).mp (by decide)
  exact not_le.mpr h2

/-! ## `Insert` adds a leaf -/

theorem addNode_insertedLeaf (bid : Bid) :
    ∀ t : Tree, t.Live → t ≠ .nil → ∃ t1, addNode t bid = .ok t1 ∧ InsertedLeaf bid t t1 := by
  intro t
  induction t with
  | nil => intro _ h; exact absurd rfl h
  | wild => intro h _; exact absurd h (by simp [Tree.Live])
  | node l b r ihl ihr =>
    intro hlive _
    obtain ⟨hl, hr⟩ := hlive
    by_cases hc : stringCompare b.bidId bid.bidId > 0
    · have hlt : bid.bidId < b.bidId := (stringCompare_pos _ _).mp hc
      cases l with
      | nil =>
        refine ⟨.node (.node .nil bid .nil) b r, ?_, .left _ _ _ _ hlt .here⟩
        simp only [addNode, hc, if_true]
      | wild => exact absurd hl (by simp [Tree.Live])
      | node ll lb lr =>
        obtain ⟨l1, e1, e2⟩ := ihl hl (by simp)
        refine ⟨.node l1 b r, ?_, .left _ _ _ _ hlt e2⟩
        simp only [addNode, hc, if_true] at e1 ⊢
        simp only [e1]
    · have hle : b.bidId ≤ bid.bidId := not_lt.mp (fun h => hc ((stringCompare_pos _ _).mpr h))
      cases r with
      | nil =>
        refine ⟨.node l b (.node .nil bid .nil), ?_, .right _ _ _ _ hle .here⟩
        simp only [addNode, hc, if_false]
      | wild => exact absurd hr (by simp [Tree.Live])
      | node rl rb rr =>
        obtain ⟨r1, e1, e2⟩ := ihr hr (by simp)
        refine ⟨.node l b r1, ?_, .right _ _ _ _ hle e2⟩
        simp only [addNode, hc, if_false] at e1 ⊢
        simp only [e1]

/-- A new leaf adds one record and removes none. -/
theorem InsertedLeaf.length_toList {bid : Bid} {t t1 : Tree} (h : InsertedLeaf bid t t1) :
    t1.toList.length = t.toList.length + 1 := by
  induction h with
  | here => simp [Tree.toList]
  | left l l1 r b _ _ ih => simp only [Tree.toList, List.length_append, List.length_cons, ih]; omega
  | right l r r1 b _ _ ih => simp only [Tree.toList, List.length_append, List.length_cons, ih]; omega

/-- C20. `Insert` never overwrites.  On every tree without invalid pointers
`Insert` returns, and the tree afterwards is the tree before with exactly one
null pointer replaced by a new leaf holding the record: every existing node
keeps its record and its position, and the number of records grows by one.
The path to the new leaf turns right at every node whose id is not greater
than the record's id; in particular, when the root has the id of the record,
the new leaf is placed in the right subtree of the root. -/
theorem Insert_adds_leaf :
    (∀ (t : Tree) (bid : Bid), t.Live →
      ∃ t1, Insert t bid = .ok t1 ∧ InsertedLeaf bid t t1 ∧
        t1.toList.length = t.toList.length + 1) ∧
    (∀ (l r : Tree) (b bid : Bid), (Tree.node l b r).Live → b.bidId = bid.bidId →
      ∃ r1, Insert (.node l b r) bid = .ok (.node l b r1) ∧ InsertedLeaf bid r r1) := by
  have key : ∀ (t : Tree) (bid : Bid), t.Live →
      ∃ t1, Insert t bid = .ok t1 ∧ InsertedLeaf bid t t1 := by
    intro t bid hlive
    cases t with
    | nil => exact ⟨_, rfl, .here⟩
    | wild => exact absurd hlive (by simp [Tree.Live])
    | node l b r => exact addNode_insertedLeaf bid (.node l b r) hlive (by simp)
  constructor
  · intro t bid hlive
    obtain ⟨t1, h1, h2⟩ := key t bid hlive
    exact ⟨t1, h1, h2, h2.length_toList⟩
  · intro l r b bid hlive hid
    obtain ⟨t1, h1, h2⟩ := key (.node l b r) bid hlive
    cases h2 with
    | left l0 l1 r0 b0 hlt _ => rw [hid] at hlt; exact absurd hlt (lt_irrefl _)
    | right l0 r0 r1 b0 _ hr => exact ⟨r1, h1, hr⟩

/-- Witness of C20: a record with the id 100 is inserted into the tree built
from the ids 100, 50, 150. -/
theorem Insert_adds_leaf_witness :
    (∃ t1, Insert (.node .nil ⟨"100", "Chair", "General", 10⟩
        (.node (.node .nil ⟨"150", "Lamp", "Enterprise", 30⟩ .nil)
          ⟨"50", "Desk", "General", 20⟩ .nil)) ⟨"100", "Stool", "General", 5⟩ = .ok t1 ∧
      InsertedLeaf ⟨"100", "Stool", "General", 5⟩
        (.node .nil ⟨"100", "Chair", "General", 10⟩
          (.node (.node .nil ⟨"150", "Lamp", "Enterprise", 30⟩ .nil)
            ⟨"50", "Desk", "General", 20⟩ .nil)) t1 ∧
      t1.toList.length = (Tree.node .nil ⟨"100", "Chair", "General", 10⟩
          (.node (.node .nil ⟨"150", "Lamp", "Enterprise", 30⟩ .nil)
            ⟨"50", "Desk", "General", 20⟩ .nil)).toList.length + 1) ∧
    (∃ r1, Insert (.node .nil ⟨"100", "Chair", "General", 10⟩
        (.node (.node .nil ⟨"150", "Lamp", "Enterprise", 30⟩ .nil)
          ⟨"50", "Desk", "General", 20⟩ .nil)) ⟨"100", "Stool", "General", 5⟩ =
        .ok (.node .nil ⟨"100", "Chair", "General", 10⟩ r1) ∧
      InsertedLeaf ⟨"100", "Stool", "General", 5⟩
        (.node (.node .nil ⟨"150", "Lamp", "Enterprise", 30⟩ .nil)
          ⟨"50", "Desk", "General", 20⟩ .nil) r1) :=
  ⟨Insert_adds_leaf.1 _ _ ⟨trivial, ⟨trivial, trivial⟩, trivial⟩,
   Insert_adds_leaf.2 _ _ _ _ ⟨trivial, ⟨trivial, trivial⟩, trivial⟩ rfl⟩

/-! ## Removal of an absent id -/

/-- C15 (failing input). The records with the ids 5 and 3 are inserted and the
absent id 1, smaller than the root's id, is removed: `removeNode` assigns the
result of the call on the null right child to `root->left`, so the tree is
not unchanged: it loses the node with the id 3, which `Search` no longer
finds.  On the empty tree `Remove` does change nothing. -/
theorem Remove_absent_id_drops_left_subtree :
    (∃ t t1, insertAll .nil [⟨"5", "Chair", "General", 10⟩,
        ⟨"3", "Desk", "General", 20⟩] = .ok t ∧
      t = .node (.node .nil ⟨"3", "Desk", "General", 20⟩ .nil)
        ⟨"5", "Chair", "General", 10⟩ .nil ∧
      Search t "1" = .ok Bid.default ∧
      Search t "3" = .ok ⟨"3", "Desk", "General", 20⟩ ∧
      Remove t "1" = .ok t1 ∧
      t1 = .node .nil ⟨"5", "Chair", "General", 10⟩ .nil ∧
      t1 ≠ t ∧
      Search t1 "3" = .ok Bid.default) ∧
    (∀ bidId : String, Remove .nil bidId = .ok .nil) := by
  refine ⟨⟨_, _, rfl, rfl, rfl, rfl, rfl, rfl, by decide, rfl⟩, ?_⟩
  intro bidId
  rfl

/-- C16 (failing input). In a table of capacity 7 the record with the id 1 is
stored in bucket 1.  The id 8 is absent and hashes to bucket 1 as well:
`Remove("8")` erases slot 1 without comparing ids, the table has 6 slots
afterwards, and `Search` no longer finds the id 1. -/
theorem Remove_absent_id_erases_bucket :
    ∃ ht ht1, (HashTable.new 7).Insert ⟨"1", "Chair", "General", 10⟩ = .ok ht ∧
      ht.Search "8" = .ok Bid.default ∧
      ht.Search "1" = .ok ⟨"1", "Chair", "General", 10⟩ ∧
      ht.Remove "8" = .ok ht1 ∧
      ht1 ≠ ht ∧
      ht1.myNodes.length = 6 ∧
      ht1.Search "1" = .ok Bid.default := by
  exact ⟨_, _, rfl, rfl, rfl, rfl, by decide, rfl, rfl⟩

/-- C17 (failing input). A table constructed with capacity 7 has 7 slots; after
one `Remove` it has 6, while `setSize` is still 7.  After the insertion of the
ids 100, 50, 150 and `Remove("50")`, slot 1 is occupied by the record with the
id 100, which hashes to 2. -/
theorem Remove_changes_bucket_count :
    (HashTable.new 7).myNodes.length = 7 ∧
    (∃ ht1, (HashTable.new 7).Remove "3" = .ok ht1 ∧ ht1.myNodes.length = 6 ∧
      ht1.setSize = 7) ∧
    (∃ ht ht1, (HashTable.new 7).insertAll [⟨"100", "Chair", "General", 10⟩,
        ⟨"50", "Desk", "General", 20⟩, ⟨"150", "Lamp", "Enterprise", 30⟩] = .ok ht ∧
      ht.Remove "50" = .ok ht1 ∧
      ht1.myNodes.length = 6 ∧
      ht1.myNodes[1]? = some ⟨⟨"100", "Chair", "General", 10⟩, 2, .null⟩ ∧
      ht1.hash (atoi "100") = .ok 2) := by
  exact ⟨rfl, ⟨_, rfl, rfl, rfl⟩, ⟨_, _, rfl, rfl, rfl, rfl, rfl⟩⟩

/-! ## The two sorters on the same vector -/

/-- C24 (failing input). On the records titled A, C the call
`quickSort(S, 0, 1)` returns C, A and `selectionSort(S)` returns A, C: the
sequences of titles differ.  In both sorters the test `== -1` fails on A
against C, where `compare` returns `-2`; `quickSort` then exchanges the two
records and `selectionSort` leaves them. -/
theorem sorters_disagree_on_titles :
    stringCompare "A" "C" = -2 ∧
    quickSortAll 4 [⟨"1", "A", "F", 10⟩, ⟨"2", "C", "G", 20⟩] =
      .ok [⟨"2", "C", "G", 20⟩, ⟨"1", "A", "F", 10⟩] ∧
    selectionSort 3 [⟨"1", "A", "F", 10⟩, ⟨"2", "C", "G", 20⟩] =
      .ok [⟨"1", "A", "F", 10⟩, ⟨"2", "C", "G", 20⟩] ∧
    ([⟨"2", "C", "G", 20⟩, ⟨"1", "A", "F", 10⟩] : List Bid).map Bid.title ≠
      ([⟨"1", "A", "F", 10⟩, ⟨"2", "C", "G", 20⟩] : List Bid).map Bid.title := by
  refine ⟨by decide, ?_, rfl, by decide⟩
  show quickSort 4 _ 0 1 = _
  rfl

/-! ## Insertion into an occupied bucket -/

/-- An insertion leaves every occupied slot as it is. -/
theorem HashTable.Insert_keeps_occupied (ht ht1 : HashTable) (bid : Bid) (k : Nat)
    (node : HashTable.Node) (hk : ht.myNodes[k]? = some node) (hocc : node.key ≠ UINT_MAX)
    (hi : ht.Insert bid = .ok ht1) : ht1.myNodes[k]? = some node := by
  unfold HashTable.Insert at hi
  cases hh : ht.hash (atoi bid.bidId) with
  | error e => rw [hh] at hi; cases hi
  | ok key =>
    rw [hh] at hi
    simp only at hi
    cases hv : vectorAt ht.myNodes (key : Int) with
    | error e => rw [hv] at hi; cases hi
    | ok prevNode =>
      rw [hv] at hi
      simp only at hi
      by_cases hc : prevNode.key = UINT_MAX
      · simp only [hc, if_true] at hi
        cases hi
        have hne : key ≠ k := by
          rintro rfl
          have h1 := ((vectorAt_ok_iff _ _ _).mp hv).2
          rw [Int.toNat_ofNat, hk] at h1
          cases h1
          exact hocc hc
        simp only
        rw [List.getElem?_set_ne hne]
        exact hk
      · simp only [hc, if_false] at hi
        cases hi
        exact hk

/-- C22. `Insert` into a bucket that is already occupied leaves the whole
table unchanged: for every table and every record whose id hashes to a slot
with a key other than `UINT_MAX`, the table after `Insert` equals the table
before; and whatever is inserted afterwards, an occupied slot keeps the node
it holds, so the first record stored in a bucket is the only one it holds. -/
theorem Insert_occupied_bucket_unchanged :
    (∀ (ht : HashTable) (bid : Bid) (key : Nat) (node : HashTable.Node),
      ht.hash (atoi bid.bidId) = .ok key → ht.myNodes[key]? = some node →
      node.key ≠ UINT_MAX → ht.Insert bid = .ok ht) ∧
    (∀ (bids : List Bid) (ht ht1 : HashTable) (k : Nat) (node : HashTable.Node),
      ht.myNodes[k]? = some node → node.key ≠ UINT_MAX →
      ht.insertAll bids = .ok ht1 → ht1.myNodes[k]? = some node) := by
  constructor
  · intro ht bid key node hh hk hocc
    have hv : vectorAt ht.myNodes (key : Int) = .ok node :=
      (vectorAt_ok_iff _ _ _).mpr ⟨by omega, by rw [Int.toNat_ofNat]; exact hk⟩
    simp only [HashTable.Insert, hh, hv, hocc, if_false]
  · intro bids
    induction bids with
    | nil =>
      intro ht ht1 k node hk _ hi
      simp only [HashTable.insertAll] at hi
      cases hi
      exact hk
    | cons bid rest ih =>
      intro ht ht1 k node hk hocc hi
      simp only [HashTable.insertAll] at hi
      cases h1 : ht.Insert bid with
      | error e => rw [h1] at hi; cases hi
      | ok ht2 =>
        rw [h1] at hi
        exact ih ht2 ht1 k node (HashTable.Insert_keeps_occupied ht ht2 bid k node hk hocc h1)
          hocc hi

/-- Witness of C22: bucket 1 of a table of capacity 7 holds the id 1; the ids
8 and 15 hash to it as well, the id 2 does not. -/
theorem Insert_occupied_bucket_unchanged_witness :
    HashTable.Insert ⟨[.empty, ⟨⟨"1", "Chair", "General", 10⟩, 1, .null⟩, .empty, .empty,
        .empty, .empty, .empty], 7⟩ ⟨"8", "Desk", "General", 20⟩ =
      .ok ⟨[.empty, ⟨⟨"1", "Chair", "General", 10⟩, 1, .null⟩, .empty, .empty,
        .empty, .empty, .empty], 7⟩ ∧
    (⟨[.empty, ⟨⟨"1", "Chair", "General", 10⟩, 1, .null⟩,
        ⟨⟨"2", "Stool", "General", 5⟩, 2, .null⟩, .empty, .empty, .empty, .empty],
      7⟩ : HashTable).myNodes[1]? = some ⟨⟨"1", "Chair", "General", 10⟩, 1, .null⟩ :=
  ⟨Insert_occupied_bucket_unchanged.1
      ⟨[.empty, ⟨⟨"1", "Chair", "General", 10⟩, 1, .null⟩, .empty, .empty,
        .empty, .empty, .empty], 7⟩
      ⟨"8", "Desk", "General", 20⟩ 1
      ⟨⟨"1", "Chair", "General", 10⟩, 1, .null⟩ rfl rfl (by decide),
   Insert_occupied_bucket_unchanged.2
      [⟨"8", "Desk", "General", 20⟩, ⟨"2", "Stool", "General", 5⟩,
        ⟨"15", "Lamp", "Enterprise", 30⟩]
      ⟨[.empty, ⟨⟨"1", "Chair", "General", 10⟩, 1, .null⟩, .empty, .empty,
        .empty, .empty, .empty], 7⟩
      ⟨[.empty, ⟨⟨"1", "Chair", "General", 10⟩, 1, .null⟩,
        ⟨⟨"2", "Stool", "General", 5⟩, 2, .null⟩, .empty, .empty, .empty, .empty], 7⟩
      1 ⟨⟨"1", "Chair", "General", 10⟩, 1, .null⟩ rfl (by decide) rfl⟩

/-! ## Removal of a node with two children -/

/-- C21 (failing input). In the tree with the ids 5 (root), 3 (left) and 7
(right) `removeNode` reaches the root with the target id 5 and two children.
The minimum of the right subtree is the record with the id 7; only its id is
copied into the root, whose title, fund and amount stay those of the removed
record, so the root does not hold the record with the id 7.  The node with
the id 7 is then freed.  When the minimum is not the right child itself (ids
5, 3, 8, 7), the call on the right subtree ends without a `return` statement
and `root->right` is left indeterminate. -/
theorem removeNode_two_children_copies_only_id :
    minVal (.node .nil ⟨"7", "Lamp", "Enterprise", 30⟩ .nil) =
      .ok ⟨"7", "Lamp", "Enterprise", 30⟩ ∧
    removeNode (.node (.node .nil ⟨"3", "Desk", "General", 20⟩ .nil)
        ⟨"5", "Chair", "General", 10⟩
        (.node .nil ⟨"7", "Lamp", "Enterprise", 30⟩ .nil)) "5" =
      .ok (.node (.node .nil ⟨"3", "Desk", "General", 20⟩ .nil)
        ⟨"7", "Chair", "General", 10⟩ .nil, .wild) ∧
    (⟨"7", "Chair", "General", 10⟩ : Bid) ≠ ⟨"7", "Lamp", "Enterprise", 30⟩ ∧
    removeNode (.node (.node .nil ⟨"3", "Desk", "General", 20⟩ .nil)
        ⟨"5", "Chair", "General", 10⟩
        (.node (.node .nil ⟨"7", "Lamp", "Enterprise", 30⟩ .nil)
          ⟨"8", "Stool", "General", 40⟩ .nil)) "5" =
      .ok (.node (.node .nil ⟨"3", "Desk", "General", 20⟩ .nil)
        ⟨"7", "Chair", "General", 10⟩ .wild, .wild) := by
  exact ⟨rfl, rfl, by decide, rfl⟩

/-! ## What `Search` returns -/

/-- A record returned by `Search` on the tree is the default record or has
the id asked for. -/
theorem Search_bidId (bidId : String) :
    ∀ (t : Tree) (r : Bid), Search t bidId = .ok r → r = Bid.default ∨ r.bidId = bidId := by
  intro t
  induction t with
  | nil =>
    intro r h
    simp only [Search] at h
    cases h
    exact Or.inl rfl
  | wild => intro r h; simp [Search] at h
  | node l b r1 ihl ihr =>
    intro r h
    simp only [Search] at h
    by_cases hc : stringCompare b.bidId bidId = 0
    · simp only [hc, if_true] at h
      cases h
      exact Or.inr ((stringCompare_eq_zero _ _).mp hc)
    · simp only [hc, if_false] at h
      by_cases hlt : stringCompare bidId b.bidId < 0
      · simp only [hlt, if_true] at h
        exact ihl r h
      · simp only [hlt, if_false] at h
        exact ihr r h

theorem HashTable.searchChain_bidId (bidId : String) :
    ∀ c : HashTable.Chain, HashTable.searchChain c bidId = Bid.default ∨
      (HashTable.searchChain c bidId).bidId = bidId := by
  intro c
  induction c with
  | null => exact Or.inl rfl
  | node bid key next ih =>
    simp only [HashTable.searchChain]
    by_cases hc : key ≠ UINT_MAX ∧ stringCompare bid.bidId bidId = 0
    · rw [if_pos hc]
      exact Or.inr ((stringCompare_eq_zero _ _).mp hc.2)
    · rw [if_neg hc]
      exact ih

/-- A record returned by `Search` on the hash table is the default record or
has the id asked for. -/
theorem HashTable.Search_returns_queried_id (ht : HashTable) (bidId : String) (r : Bid)
    (h : ht.Search bidId = .ok r) : r = Bid.default ∨ r.bidId = bidId := by
  unfold HashTable.Search at h
  cases hh : ht.hash (atoi bidId) with
  | error e => rw [hh] at h; cases h
  | ok key =>
    rw [hh] at h
    simp only at h
    cases hv : vectorAt ht.myNodes (key : Int) with
    | error e => rw [hv] at h; cases h
    | ok node =>
      rw [hv] at h
      simp only at h
      by_cases hc : node.key ≠ UINT_MAX ∧ stringCompare node.bid.bidId bidId = 0
      · rw [if_pos hc] at h
        cases h
        exact Or.inr ((stringCompare_eq_zero _ _).mp hc.2)
      · rw [if_neg hc] at h
        by_cases hk : node.key = UINT_MAX
        · rw [if_pos hk] at h
          cases h
          exact Or.inl rfl
        · rw [if_neg hk] at h
          cases h
          exact HashTable.searchChain_bidId bidId _

/-- C23 (failing input). The records with the ids 5, 3 and 7 are inserted and
the id 5, whose node has two children, is removed.  `Search("7")` then returns
a record with the id 7 and the title, fund and amount of the removed record
with the id 5: it is not the default record and it is none of the records that
were inserted. -/
theorem Search_returns_record_never_inserted :
    ∃ t t1, insertAll .nil [⟨"5", "Chair", "General", 10⟩, ⟨"3", "Desk", "General", 20⟩,
        ⟨"7", "Lamp", "Enterprise", 30⟩] = .ok t ∧
      Search t "7" = .ok ⟨"7", "Lamp", "Enterprise", 30⟩ ∧
      Remove t "5" = .ok t1 ∧
      Search t1 "7" = .ok ⟨"7", "Chair", "General", 10⟩ ∧
      (⟨"7", "Chair", "General", 10⟩ : Bid) ≠ Bid.default ∧
      (⟨"7", "Chair", "General", 10⟩ : Bid) ∉
        [(⟨"5", "Chair", "General", 10⟩ : Bid), ⟨"3", "Desk", "General", 20⟩,
          ⟨"7", "Lamp", "Enterprise", 30⟩] := by
  exact ⟨_, _, rfl, rfl, rfl, rfl, by decide, by decide⟩

end DataBaseandAlg
